import Mathlib

/-! Calendar free-slot finder (`UMT.cpp`).

A shallow embedding of the interval pipeline of `UMT.cpp`
(`Time`, `mergeCalendars`, `mergeIntervalsInCalendar`, `findPossibleSlots`)
and theorems about it.

Modelling conventions.

* `std::vector<pair<Time, Time>>` is `List Interval`, `v.size()` is `List.length`,
  `push_back` appends one element at the end.
* A `while`/`for` loop is a recursive function on the loop variables (the index
  and the vector being built); the loop guard `index < v.size()` is the `if` at
  the head of the function, and a read `v[index]` under that guard is `v[index]`.
* A read that is not protected by a guard (`calendar[index - 1]` in
  `mergeIntervalsInCalendar`, `calendar[0]` and `calendar[calendar.size() - 1]`
  in `findPossibleSlots`) is `v[i]?`; reading outside the vector is undefined
  behaviour in C++ and makes the function return `none`.
* The fields of `Time` and `minutes` are `int`; they are `Int` here, and every
  32-bit value is covered. The comparison operators never overflow.
  `Time::operator-` computes in 32-bit `int`: each of its four operations is
  reduced to the 32-bit two's complement range by `int32`, which is what the
  compiled program does on overflow. For the fields the parser produces
  (`0..99`) nothing overflows and the result is the exact signed minute count.
-/

namespace UMT

/-! ## 32-bit `int` -/

/-- The value a 32-bit two's complement `int` holds after a computation whose exact
result is `x`: `x` reduced modulo `2^32` into `-2^31 .. 2^31 - 1`. -/
def int32 (x : Int) : Int := (x + 2147483648) % 4294967296 - 2147483648

/-! ## `class Time` -/

/-- The class `Time`: two public `int` fields. -/
@[ext]
structure Time where
  hours : Int
  minutes : Int
  deriving DecidableEq, Repr

namespace Time

/-- `Time::operator<`. -/
def lt (a b : Time) : Bool :=
  if a.hours < b.hours then true
  else if a.hours = b.hours ∧ a.minutes < b.minutes then true
  else false

/-- `Time::operator>`. -/
def gt (a b : Time) : Bool :=
  if a.hours > b.hours then true
  else if a.hours = b.hours ∧ a.minutes > b.minutes then true
  else false

/-- `Time::operator>=`. -/
def ge (a b : Time) : Bool :=
  if a.hours > b.hours then true
  else if a.hours = b.hours ∧ a.minutes ≥ b.minutes then true
  else false

/-- `Time::operator-`: `(hours - time.hours) * 60 + (minutes - time.minutes)`, the signed
difference in minutes, computed in 32-bit `int`. -/
def sub (a b : Time) : Int :=
  int32 (int32 (int32 (a.hours - b.hours) * 60) + int32 (a.minutes - b.minutes))

end Time

/-- The type `pair<Time, Time>`: `.1` is `first` (start), `.2` is `second` (end). -/
abbrev Interval := Time × Time

/-! ## `mergeCalendars` -/

/-- The first loop of `mergeCalendars`:
`while (index1 < intervals1.size() && index2 < intervals2.size())`.
Returns the loop variables at exit. -/
def mergeCalendars.both (intervals1 intervals2 : List Interval) (index1 index2 : Nat)
    (mergedIntervals : List Interval) : Nat × Nat × List Interval :=
  if h : index1 < intervals1.length ∧ index2 < intervals2.length then
    if Time.lt intervals1[index1].1 intervals2[index2].1 then
      mergeCalendars.both intervals1 intervals2 (index1 + 1) index2
        (mergedIntervals ++ [intervals1[index1]])
    else
      mergeCalendars.both intervals1 intervals2 index1 (index2 + 1)
        (mergedIntervals ++ [intervals2[index2]])
  else (index1, index2, mergedIntervals)
termination_by (intervals1.length - index1) + (intervals2.length - index2)
decreasing_by all_goals (simp_wf; omega)

/-- The second and third loops of `mergeCalendars`:
`while (index < intervals.size()) { mergedIntervals.push_back(intervals[index]); ++index; }`. -/
def mergeCalendars.rest (intervals : List Interval) (index : Nat)
    (mergedIntervals : List Interval) : List Interval :=
  if h : index < intervals.length then
    mergeCalendars.rest intervals (index + 1) (mergedIntervals ++ [intervals[index]])
  else mergedIntervals
termination_by intervals.length - index

/-- The function `mergeCalendars`. -/
def mergeCalendars (intervals1 intervals2 : List Interval) : List Interval :=
  let st := mergeCalendars.both intervals1 intervals2 0 0 []
  let mergedIntervals := mergeCalendars.rest intervals1 st.1 st.2.2
  mergeCalendars.rest intervals2 st.2.1 mergedIntervals

/-! ## `mergeIntervalsInCalendar` -/

/-- The inner loop of `mergeIntervalsInCalendar`:
`while (index < calendar.size() && end >= calendar[index].first) { ++index; }`.
Returns `index` at exit. -/
def mergeIntervalsInCalendar.skip (calendar : List Interval) (endT : Time) (index : Nat) : Nat :=
  if h : index < calendar.length then
    if Time.ge endT calendar[index].1 then
      mergeIntervalsInCalendar.skip calendar endT (index + 1)
    else index
  else index
termination_by calendar.length - index

/-- The outer loop of `mergeIntervalsInCalendar`: `while (index < calendar.size())`.
`none` when `calendar[index - 1]` is read outside the vector. -/
def mergeIntervalsInCalendar.loop (calendar : List Interval) (index : Nat)
    (finalCalendar : List Interval) : Option (List Interval) :=
  if h : index < calendar.length then
    let beginT := calendar[index].1
    let endT := calendar[index].2
    let index' := mergeIntervalsInCalendar.skip calendar endT (index + 1)
    match calendar[index' - 1]? with
    | none => none
    | some last =>
      let maxEnd := if Time.gt endT last.2 then endT else last.2
      mergeIntervalsInCalendar.loop calendar index' (finalCalendar ++ [(beginT, maxEnd)])
  else some finalCalendar
termination_by calendar.length - index
decreasing_by
  simp_wf
  have key : ∀ n i e, calendar.length - i ≤ n →
      i ≤ mergeIntervalsInCalendar.skip calendar e i := by
    intro n
    induction n with
    | zero =>
      intro i e hi
      unfold mergeIntervalsInCalendar.skip
      have hlen : ¬ i < calendar.length := by omega
      simp [hlen]
    | succ n ih =>
      intro i e hi
      unfold mergeIntervalsInCalendar.skip
      split
      · split
        · have := ih (i + 1) e (by omega)
          omega
        · exact Nat.le_refl i
      · exact Nat.le_refl i
  have := key (calendar.length - (index + 1)) (index + 1) calendar[index].2 (Nat.le_refl _)
  omega

/-- The function `mergeIntervalsInCalendar`. -/
def mergeIntervalsInCalendar (calendar : List Interval) : Option (List Interval) :=
  mergeIntervalsInCalendar.loop calendar 0 []

/-! ## `findPossibleSlots` -/

/-- The `for` loop of `findPossibleSlots`:
`for (int i = 1; i < calendar.size(); ++i)`. -/
def findPossibleSlots.scan (calendar : List Interval) (minutes : Int)
    (maxLowerLimit minUpperLimit : Time) (i : Nat) (answer : List Interval) : List Interval :=
  if h : i < calendar.length then
    let endT := (calendar[i - 1]).2
    let start := calendar[i].1
    if Time.sub start endT ≥ minutes then
      let lower := if Time.gt maxLowerLimit endT then maxLowerLimit else endT
      let upper := if Time.lt minUpperLimit start then minUpperLimit else start
      findPossibleSlots.scan calendar minutes maxLowerLimit minUpperLimit (i + 1)
        (answer ++ [(lower, upper)])
    else
      findPossibleSlots.scan calendar minutes maxLowerLimit minUpperLimit (i + 1) answer
  else answer
termination_by calendar.length - i

/-- The function `findPossibleSlots`. `none` when `calendar[0]` or
`calendar[calendar.size() - 1]` is read outside the vector (empty calendar). -/
def findPossibleSlots (calendar : List Interval) (minutes : Int) (lim1 lim2 : Interval) :
    Option (List Interval) :=
  let maxLowerLimit := if Time.gt lim1.1 lim2.1 then lim1.1 else lim2.1
  let minUpperLimit := if Time.lt lim1.2 lim2.2 then lim1.2 else lim2.2
  match calendar[0]? with
  | none => none
  | some first =>
    let answer : List Interval :=
      if Time.lt maxLowerLimit first.1 then [(maxLowerLimit, first.1)] else []
    let answer := findPossibleSlots.scan calendar minutes maxLowerLimit minUpperLimit 1 answer
    match calendar[calendar.length - 1]? with
    | none => none
    | some last =>
      if Time.gt minUpperLimit last.2 then some (answer ++ [(last.2, minUpperLimit)])
      else some answer

/-! ## The pipeline of `main` -/

/-- Lines 195-202 of `main`: merge the two calendars, merge the overlapping
intervals, find the slots. -/
def mainPipeline (intervals1 intervals2 : List Interval) (lim1 lim2 : Interval)
    (minutes : Int) : Option (List Interval) :=
  let mergedCalendars := mergeCalendars intervals1 intervals2
  match mergeIntervalsInCalendar mergedCalendars with
  | none => none
  | some finalCalendar => findPossibleSlots finalCalendar minutes lim1 lim2

/-- Shorthand for the time `h:m`. -/
def hm (h m : Int) : Time := ⟨h, m⟩

/-! ## Specification vocabulary -/

/-- The order "starts no later than" on intervals: `a.first <= b.first`, written with
the operator the source has (`b.first >= a.first`). -/
def StartLE (a b : Interval) : Prop := Time.ge b.1 a.1 = true

instance (a b : Interval) : Decidable (StartLE a b) :=
  inferInstanceAs (Decidable (Time.ge b.1 a.1 = true))

/-- The order "ends no later than" on intervals: `a.second <= b.second`. -/
def EndLE (a b : Interval) : Prop := Time.ge b.2 a.2 = true

instance (a b : Interval) : Decidable (EndLE a b) :=
  inferInstanceAs (Decidable (Time.ge b.2 a.2 = true))

/-- A calendar is sorted ascending by start (non-strictly): every interval starts no
later than the one that follows it. -/
def SortedByStart (l : List Interval) : Prop := l.Chain' StartLE

instance (l : List Interval) : Decidable (SortedByStart l) :=
  inferInstanceAs (Decidable (l.Chain' StartLE))

/-- Every interval of the calendar has `start <= end`. -/
def ValidIntervals (l : List Interval) : Prop := ∀ iv ∈ l, Time.ge iv.2 iv.1 = true

instance (l : List Interval) : Decidable (ValidIntervals l) :=
  inferInstanceAs (Decidable (∀ iv ∈ l, Time.ge iv.2 iv.1 = true))

/-- Every adjacent pair of the calendar has `prev.end < next.start`. -/
def StrictlySeparated (l : List Interval) : Prop :=
  l.Chain' (fun prev next => Time.lt prev.2 next.1 = true)

instance (l : List Interval) : Decidable (StrictlySeparated l) :=
  inferInstanceAs
    (Decidable (l.Chain' (fun (prev next : Interval) => Time.lt prev.2 next.1 = true)))

/-- Two intervals overlap: `s < be` and `bs < e`. -/
def Overlaps (slot busy : Interval) : Prop :=
  Time.lt slot.1 busy.2 = true ∧ Time.lt busy.1 slot.2 = true

instance (slot busy : Interval) : Decidable (Overlaps slot busy) :=
  inferInstanceAs (Decidable (Time.lt slot.1 busy.2 = true ∧ Time.lt busy.1 slot.2 = true))

/-- The interval `inner` is contained in `outer`: `os <= s` and `e <= oe`. -/
def Contains (outer inner : Interval) : Prop :=
  Time.ge inner.1 outer.1 = true ∧ Time.ge outer.2 inner.2 = true

instance (outer inner : Interval) : Decidable (Contains outer inner) :=
  inferInstanceAs (Decidable (Time.ge inner.1 outer.1 = true ∧ Time.ge outer.2 inner.2 = true))

/-- The comparison `mergeCalendars` makes between the two heads: the left one is taken
exactly when `begin1 < begin2`. -/
def takeLeft (a b : Interval) : Bool := Time.lt a.1 b.1

namespace Time

/-- The later of two times (the `max` of the specification). -/
def max (a b : Time) : Time := if Time.lt a b then b else a

/-- The earlier of two times (the `min` of the specification). -/
def min (a b : Time) : Time := if Time.lt b a then b else a

end Time

/-- The specification's `lowerBound = max(window1.start, window2.start)`. -/
def lowerBound (window1 window2 : Interval) : Time := Time.max window1.1 window2.1

/-- The specification's `upperBound = min(window1.end, window2.end)`. -/
def upperBound (window1 window2 : Interval) : Time := Time.min window1.2 window2.2

/-- Leading gap of the specified algorithm: `(lowerBound, firstBusy.start)` if
`lowerBound < firstBusy.start`, else nothing. -/
def leadingGap (lowerBound : Time) (firstBusy : Interval) : List Interval :=
  if Time.lt lowerBound firstBusy.1 then [(lowerBound, firstBusy.1)] else []

/-- Middle gaps of the specified algorithm: for each adjacent pair `(prev, curr)` in order
whose raw gap `curr.start - prev.end` (the `Time` difference, `Time.sub`) is at least
`minutes`, the clipped interval `(max(lowerBound, prev.end), min(upperBound, curr.start))`. -/
def middleGaps (minutes : Int) (lowerBound upperBound : Time) (calendar : List Interval) :
    List Interval :=
  ((calendar.zip calendar.tail).filter
      (fun pc => decide (Time.sub pc.2.1 pc.1.2 ≥ minutes))).map
    (fun pc => (Time.max lowerBound pc.1.2, Time.min upperBound pc.2.1))

/-- Trailing gap of the specified algorithm: `(lastBusy.end, upperBound)` if
`upperBound > lastBusy.end`, else nothing. -/
def trailingGap (upperBound : Time) (lastBusy : Interval) : List Interval :=
  if Time.gt upperBound lastBusy.2 then [(lastBusy.2, upperBound)] else []

/-- The middle gaps without clipping: for each adjacent pair `(prev, curr)` in order whose
raw gap `curr.start - prev.end` (the `Time` difference, `Time.sub`) is at least `minutes`,
the interval `(prev.end, curr.start)`. -/
def rawGaps (minutes : Int) (calendar : List Interval) : List Interval :=
  ((calendar.zip calendar.tail).filter
      (fun pc => decide (Time.sub pc.2.1 pc.1.2 ≥ minutes))).map
    (fun pc => (pc.1.2, pc.2.1))

/-- Each slot ends no later than the next slot starts. -/
def EndBeforeNextStart (slots : List Interval) : Prop :=
  slots.Chain' (fun slot next => Time.ge next.1 slot.2 = true)

instance (slots : List Interval) : Decidable (EndBeforeNextStart slots) :=
  inferInstanceAs
    (Decidable (slots.Chain' (fun (slot next : Interval) => Time.ge next.1 slot.2 = true)))

/-! ## The order on `Time` -/

namespace Time

theorem lt_iff (a b : Time) :
    lt a b = true ↔ a.hours < b.hours ∨ (a.hours = b.hours ∧ a.minutes < b.minutes) := by
  unfold lt
  split
  · simp [*]
  · split <;> simp_all

theorem gt_iff (a b : Time) :
    gt a b = true ↔ b.hours < a.hours ∨ (a.hours = b.hours ∧ b.minutes < a.minutes) := by
  unfold gt
  split
  · simp_all
  · split <;> simp_all

theorem ge_iff (a b : Time) :
    ge a b = true ↔ b.hours < a.hours ∨ (a.hours = b.hours ∧ b.minutes ≤ a.minutes) := by
  unfold ge
  split
  · simp_all
  · split <;> simp_all

theorem gt_eq_lt (a b : Time) : gt a b = lt b a := by
  rw [Bool.eq_iff_iff, gt_iff, lt_iff]
  omega

theorem ge_eq_not_lt (a b : Time) : ge a b = !lt a b := by
  rw [Bool.eq_iff_iff, Bool.not_eq_true', ← Bool.not_eq_true, ge_iff, lt_iff]
  omega

theorem lt_irrefl (a : Time) : lt a a = false := by
  rw [← Bool.not_eq_true, lt_iff]
  omega

theorem lt_trans {a b c : Time} (hab : lt a b = true) (hbc : lt b c = true) : lt a c = true := by
  rw [lt_iff] at *
  omega

theorem eq_of_not_lt {a b : Time} (hab : lt a b = false) (hba : lt b a = false) : a = b := by
  rw [← Bool.not_eq_true, lt_iff] at hab hba
  ext <;> omega

theorem ge_refl (a : Time) : ge a a = true := by
  rw [ge_iff]
  omega

theorem ge_trans {a b c : Time} (hab : ge a b = true) (hbc : ge b c = true) : ge a c = true := by
  rw [ge_iff] at *
  omega

theorem ge_of_lt {a b : Time} (h : lt a b = true) : ge b a = true := by
  rw [ge_iff]
  rw [lt_iff] at h
  omega

theorem ge_of_not_lt {a b : Time} (h : lt a b = false) : ge a b = true := by
  rw [ge_eq_not_lt, h]
  rfl

theorem sub_eq_int32 (a b : Time) :
    sub a b = int32 ((a.hours - b.hours) * 60 + (a.minutes - b.minutes)) := by
  unfold sub int32
  omega

theorem sub_eq_of_fits (a b : Time)
    (hlo : -2147483648 ≤ (a.hours - b.hours) * 60 + (a.minutes - b.minutes))
    (hhi : (a.hours - b.hours) * 60 + (a.minutes - b.minutes) < 2147483648) :
    sub a b = (a.hours - b.hours) * 60 + (a.minutes - b.minutes) := by
  unfold sub int32
  omega

end Time

/-! ## `mergeCalendars` is the two-pointer merge -/

theorem sortedByStart_iff_pairwise (l : List Interval) :
    SortedByStart l ↔ l.Pairwise StartLE :=
  @List.chain'_iff_pairwise _ StartLE ⟨fun _ _ _ hab hbc => Time.ge_trans hbc hab⟩ l

theorem mergeCalendars.rest_eq (intervals : List Interval) (index : Nat)
    (mergedIntervals : List Interval) :
    mergeCalendars.rest intervals index mergedIntervals
      = mergedIntervals ++ intervals.drop index := by
  induction index, mergedIntervals using mergeCalendars.rest.induct intervals with
  | case1 index acc h ih =>
    rw [mergeCalendars.rest, dif_pos h, ih, List.drop_eq_getElem_cons h]
    simp
  | case2 index acc h =>
    rw [mergeCalendars.rest, dif_neg h, List.drop_of_length_le (by omega)]
    simp

theorem mergeCalendars.both_eq (intervals1 intervals2 : List Interval) (index1 index2 : Nat)
    (mergedIntervals : List Interval) :
    (mergeCalendars.both intervals1 intervals2 index1 index2 mergedIntervals).2.2
        ++ intervals1.drop (mergeCalendars.both intervals1 intervals2 index1 index2 mergedIntervals).1
        ++ intervals2.drop (mergeCalendars.both intervals1 intervals2 index1 index2 mergedIntervals).2.1
      = mergedIntervals ++ List.merge (intervals1.drop index1) (intervals2.drop index2) takeLeft := by
  induction index1, index2, mergedIntervals
    using mergeCalendars.both.induct intervals1 intervals2 with
  | case1 i j acc h hlt ih =>
    rw [mergeCalendars.both, dif_pos h, if_pos hlt, ih,
      List.drop_eq_getElem_cons h.1, List.drop_eq_getElem_cons h.2,
      List.cons_merge_cons_pos takeLeft _ _ (by simpa [takeLeft] using hlt)]
    simp
  | case2 i j acc h hlt ih =>
    rw [mergeCalendars.both, dif_pos h, if_neg hlt, ih,
      List.drop_eq_getElem_cons h.1, List.drop_eq_getElem_cons h.2,
      List.cons_merge_cons_neg takeLeft _ _ (by simpa [takeLeft] using hlt)]
    simp
  | case3 i j acc h =>
    rw [mergeCalendars.both, dif_neg h]
    simp only [List.append_assoc, List.append_cancel_left_eq]
    by_cases h1 : i < intervals1.length
    · have h2 : intervals2.length ≤ j := by omega
      rw [List.drop_of_length_le h2]
      simp
    · rw [List.drop_of_length_le (by omega)]
      simp

theorem mergeCalendars_eq_merge (intervals1 intervals2 : List Interval) :
    mergeCalendars intervals1 intervals2 = List.merge intervals1 intervals2 takeLeft := by
  have h := mergeCalendars.both_eq intervals1 intervals2 0 0 []
  simp only [mergeCalendars, mergeCalendars.rest_eq]
  simpa using h

theorem merge_pairwise_startLE : ∀ (xs ys : List Interval),
    xs.Pairwise StartLE → ys.Pairwise StartLE → (List.merge xs ys takeLeft).Pairwise StartLE
  | [], ys, _, hy => by simpa using hy
  | x :: xs, [], hx, _ => by simpa using hx
  | x :: xs, y :: ys, hx, hy => by
    rw [List.cons_merge_cons]
    have hx' := List.pairwise_cons.mp hx
    have hy' := List.pairwise_cons.mp hy
    split
    · rename_i hlt
      have hxy : StartLE x y := Time.ge_of_lt (by simpa [takeLeft] using hlt)
      refine List.pairwise_cons.mpr ⟨?_, merge_pairwise_startLE xs (y :: ys) hx'.2 hy⟩
      intro z hz
      rcases List.mem_merge.mp hz with hz | hz
      · exact hx'.1 z hz
      · rcases List.mem_cons.mp hz with rfl | hz
        · exact hxy
        · exact Time.ge_trans (hy'.1 z hz) hxy
    · rename_i hlt
      have hyx : StartLE y x := Time.ge_of_not_lt (by simpa [takeLeft] using hlt)
      refine List.pairwise_cons.mpr ⟨?_, merge_pairwise_startLE (x :: xs) ys hx hy'.2⟩
      intro z hz
      rcases List.mem_merge.mp hz with hz | hz
      · rcases List.mem_cons.mp hz with rfl | hz
        · exact hyx
        · exact Time.ge_trans (hx'.1 z hz) hyx
      · exact hy'.1 z hz
termination_by xs ys => xs.length + ys.length

/-! ## `findPossibleSlots` against its specified algorithm -/

theorem Time.max_eq_code (a b : Time) : (if Time.gt a b then a else b) = Time.max a b := by
  unfold Time.max
  rw [Time.gt_eq_lt]
  by_cases h1 : Time.lt b a = true <;> by_cases h2 : Time.lt a b = true
  · rw [Time.lt_iff] at h1 h2; omega
  · simp [h1, h2]
  · simp [h1, h2]
  · simp only [h1, h2]
    exact (Time.eq_of_not_lt (by simpa using h1) (by simpa using h2))

theorem Time.min_eq_code (a b : Time) : (if Time.lt a b then a else b) = Time.min a b := by
  unfold Time.min
  by_cases h1 : Time.lt b a = true <;> by_cases h2 : Time.lt a b = true
  · rw [Time.lt_iff] at h1 h2; omega
  · simp [h1, h2]
  · simp [h1, h2]
  · simp only [h1, h2]
    exact (Time.eq_of_not_lt (by simpa using h1) (by simpa using h2))

theorem middleGaps_cons_cons (minutes : Int) (lo hi : Time) (prev curr : Interval)
    (rest : List Interval) :
    middleGaps minutes lo hi (prev :: curr :: rest)
      = (if Time.sub curr.1 prev.2 ≥ minutes then [(Time.max lo prev.2, Time.min hi curr.1)]
          else []) ++ middleGaps minutes lo hi (curr :: rest) := by
  unfold middleGaps
  by_cases h : Time.sub curr.1 prev.2 ≥ minutes <;> simp [List.filter_cons, h]

theorem middleGaps_short (minutes : Int) (lo hi : Time) (l : List Interval)
    (h : l.length ≤ 1) : middleGaps minutes lo hi l = [] := by
  match l, h with
  | [], _ => simp [middleGaps]
  | [_], _ => simp [middleGaps]

theorem findPossibleSlots.scan_eq (calendar : List Interval) (minutes : Int) (lo hi : Time) :
    ∀ (n i : Nat) (answer : List Interval), 1 ≤ i → calendar.length - i ≤ n →
      findPossibleSlots.scan calendar minutes lo hi i answer
        = answer ++ middleGaps minutes lo hi (calendar.drop (i - 1)) := by
  intro n
  induction n with
  | zero =>
    intro i answer _ hn
    have h : ¬ i < calendar.length := by omega
    rw [findPossibleSlots.scan, dif_neg h, middleGaps_short]
    · simp
    · simp only [List.length_drop]
      omega
  | succ n ih =>
    intro i answer hi1 hn
    by_cases h : i < calendar.length
    · have hd : calendar.drop (i - 1)
          = calendar[i - 1] :: calendar[i] :: calendar.drop (i + 1) := by
        rw [List.drop_eq_getElem_cons (by omega : i - 1 < calendar.length)]
        have hi : i - 1 + 1 = i := by omega
        simp only [hi]
        rw [List.drop_eq_getElem_cons h]
      have hd2 : calendar.drop i = calendar[i] :: calendar.drop (i + 1) :=
        List.drop_eq_getElem_cons h
      rw [findPossibleSlots.scan, dif_pos h]
      simp only [Time.max_eq_code, Time.min_eq_code]
      rw [hd, middleGaps_cons_cons, ← hd2]
      by_cases hge : Time.sub calendar[i].1 calendar[i - 1].2 ≥ minutes
      · rw [if_pos hge, if_pos hge, ih (i + 1) _ (by omega) (by omega)]
        simp
      · rw [if_neg hge, if_neg hge, ih (i + 1) _ (by omega) (by omega)]
        simp
    · rw [findPossibleSlots.scan, dif_neg h, middleGaps_short]
      · simp
      · simp only [List.length_drop]
        omega

theorem Time.ge_of_lt_of_ge {a b c : Time} (hab : Time.lt a b = true) (hcb : Time.ge c b = true) :
    Time.ge c a = true := by
  rw [Time.ge_iff] at *
  rw [Time.lt_iff] at hab
  omega

theorem Time.not_lt_of_ge {a b : Time} (h : Time.ge a b = true) : Time.lt a b = false := by
  rw [Time.ge_eq_not_lt] at h
  simpa using h

theorem Time.max_ge_right (a b : Time) : Time.ge (Time.max a b) b = true := by
  unfold Time.max
  split
  · exact Time.ge_refl b
  · rename_i h
    exact Time.ge_of_not_lt (by simpa using h)

theorem Time.max_ge_left (a b : Time) : Time.ge (Time.max a b) a = true := by
  unfold Time.max
  split
  · rename_i h
    exact Time.ge_of_lt h
  · exact Time.ge_refl a

theorem Time.ge_min_right (a b : Time) : Time.ge b (Time.min a b) = true := by
  unfold Time.min
  split
  · exact Time.ge_refl b
  · rename_i h
    exact Time.ge_of_not_lt (by simpa using h)

theorem Time.ge_min_left (a b : Time) : Time.ge a (Time.min a b) = true := by
  unfold Time.min
  split
  · rename_i h
    exact Time.ge_of_lt h
  · exact Time.ge_refl a

theorem pairwise_endLE_of_separated (l : List Interval) (hvalid : ValidIntervals l)
    (hsep : StrictlySeparated l) : l.Pairwise EndLE := by
  have hchain : l.Chain' EndLE := by
    refine (List.Chain'.iff_mem.mp hsep).imp ?_
    intro a b h
    exact Time.ge_of_lt_of_ge h.2.2 (hvalid b h.2.1)
  exact (@List.chain'_iff_pairwise _ EndLE ⟨fun _ _ _ hab hbc => Time.ge_trans hbc hab⟩ l).mp hchain

theorem adjacent_split : ∀ (l : List Interval), l.Pairwise StartLE → l.Pairwise EndLE →
    ∀ pc ∈ l.zip l.tail, ∀ b ∈ l,
      Time.ge pc.1.2 b.2 = true ∨ Time.ge b.1 pc.2.1 = true
  | [], _, _ => by simp
  | [_], _, _ => by simp
  | x :: y :: rest, hs, he => by
    intro pc hpc b hb
    have hs' := List.pairwise_cons.mp hs
    have he' := List.pairwise_cons.mp he
    simp only [List.tail_cons, List.zip_cons_cons, List.mem_cons] at hpc
    rcases hpc with rfl | hpc
    · rcases List.mem_cons.mp hb with rfl | hb
      · exact Or.inl (Time.ge_refl _)
      · right
        rcases List.mem_cons.mp hb with rfl | hb'
        · exact Time.ge_refl _
        · exact (List.pairwise_cons.mp hs'.2).1 b hb'
    · rcases List.mem_cons.mp hb with rfl | hb
      · left
        have hp : pc.1 ∈ y :: rest := (List.of_mem_zip hpc).1
        exact he'.1 _ hp
      · exact adjacent_split (y :: rest) hs'.2 he'.2 pc hpc b hb

theorem head_startLE (l : List Interval) (hne : l ≠ []) (hs : l.Pairwise StartLE) :
    ∀ b ∈ l, Time.ge b.1 (l.head hne).1 = true := by
  cases l with
  | nil => exact absurd rfl hne
  | cons a rest =>
    intro b hb
    rcases List.mem_cons.mp hb with rfl | hb
    · exact Time.ge_refl _
    · exact (List.pairwise_cons.mp hs).1 b hb

theorem endLE_getLast (l : List Interval) (hne : l ≠ []) (he : l.Pairwise EndLE) :
    ∀ b ∈ l, Time.ge (l.getLast hne).2 b.2 = true := by
  intro b hb
  rw [← List.dropLast_append_getLast hne] at hb he
  rcases List.mem_append.mp hb with hb | hb
  · exact (List.pairwise_append.mp he).2.2 b hb _ (List.mem_singleton_self _)
  · rw [List.mem_singleton.mp hb]
    exact Time.ge_refl _

/-- The result of `findPossibleSlots` on a non-empty calendar, as three gap lists. -/
theorem findPossibleSlots_eq_gaps (calendar : List Interval) (minutes : Int)
    (window1 window2 : Interval) (hne : calendar ≠ []) :
    findPossibleSlots calendar minutes window1 window2
      = some (leadingGap (lowerBound window1 window2) (calendar.head hne)
          ++ middleGaps minutes (lowerBound window1 window2) (upperBound window1 window2) calendar
          ++ trailingGap (upperBound window1 window2) (calendar.getLast hne)) := by
  have h0 : calendar[0]? = some (calendar.head hne) := by
    cases calendar with
    | nil => exact absurd rfl hne
    | cons a l => simp
  have hl : calendar[calendar.length - 1]? = some (calendar.getLast hne) := by
    rw [← List.getLast?_eq_getElem?, List.getLast?_eq_getLast _ hne]
  unfold findPossibleSlots
  simp only [h0, hl, Time.max_eq_code, Time.min_eq_code]
  rw [findPossibleSlots.scan_eq calendar minutes _ _ calendar.length 1 _ (Nat.le_refl 1) (by omega)]
  simp only [Nat.sub_self, List.drop_zero, leadingGap, trailingGap, lowerBound, upperBound]
  split <;> simp


/-! ## The loops of `mergeIntervalsInCalendar` -/

theorem mergeIntervalsInCalendar.skip_bounds (calendar : List Interval) (endT : Time) :
    ∀ (n index : Nat), calendar.length - index ≤ n →
      index ≤ mergeIntervalsInCalendar.skip calendar endT index
        ∧ (index ≤ calendar.length →
            mergeIntervalsInCalendar.skip calendar endT index ≤ calendar.length) := by
  intro n
  induction n with
  | zero =>
    intro index hn
    have h : ¬ index < calendar.length := by omega
    rw [mergeIntervalsInCalendar.skip, dif_neg h]
    exact ⟨Nat.le_refl _, fun hle => hle⟩
  | succ n ih =>
    intro index hn
    by_cases h : index < calendar.length
    · rw [mergeIntervalsInCalendar.skip, dif_pos h]
      split
      · have := ih (index + 1) (by omega)
        exact ⟨by omega, fun _ => this.2 (by omega)⟩
      · exact ⟨Nat.le_refl _, fun hle => hle⟩
    · rw [mergeIntervalsInCalendar.skip, dif_neg h]
      exact ⟨Nat.le_refl _, fun hle => hle⟩

theorem mergeIntervalsInCalendar.skip_stop (calendar : List Interval) (endT : Time)
    (index : Nat)
    (hstop : ∀ h : index < calendar.length, Time.ge endT calendar[index].1 = false) :
    mergeIntervalsInCalendar.skip calendar endT index = index := by
  by_cases h : index < calendar.length
  · rw [mergeIntervalsInCalendar.skip, dif_pos h, hstop h]
    simp
  · rw [mergeIntervalsInCalendar.skip, dif_neg h]

theorem mergeIntervalsInCalendar.loop_step (calendar : List Interval) (index : Nat)
    (finalCalendar : List Interval) (h : index < calendar.length) :
    ∃ last, calendar[mergeIntervalsInCalendar.skip calendar calendar[index].2 (index + 1) - 1]?
          = some last
      ∧ mergeIntervalsInCalendar.loop calendar index finalCalendar
        = mergeIntervalsInCalendar.loop calendar
            (mergeIntervalsInCalendar.skip calendar calendar[index].2 (index + 1))
            (finalCalendar ++ [(calendar[index].1,
              if Time.gt calendar[index].2 last.2 then calendar[index].2 else last.2)]) := by
  have hb := mergeIntervalsInCalendar.skip_bounds calendar calendar[index].2
    (calendar.length - (index + 1)) (index + 1) (Nat.le_refl _)
  have hlt : mergeIntervalsInCalendar.skip calendar calendar[index].2 (index + 1) - 1
      < calendar.length := by
    have := hb.2 (by omega)
    omega
  refine ⟨calendar[mergeIntervalsInCalendar.skip calendar calendar[index].2 (index + 1) - 1],
    List.getElem?_eq_getElem hlt, ?_⟩
  rw [mergeIntervalsInCalendar.loop, dif_pos h]
  simp only [List.getElem?_eq_getElem hlt]

theorem mergeIntervalsInCalendar.loop_total (calendar : List Interval) :
    ∀ (n index : Nat) (finalCalendar : List Interval), calendar.length - index ≤ n →
      ∃ out, mergeIntervalsInCalendar.loop calendar index finalCalendar
            = some (finalCalendar ++ out)
        ∧ ∀ h : index < calendar.length, ∃ e rest, out = (calendar[index].1, e) :: rest := by
  intro n
  induction n with
  | zero =>
    intro index acc hn
    have h : ¬ index < calendar.length := by omega
    refine ⟨[], ?_, fun h' => absurd h' h⟩
    rw [mergeIntervalsInCalendar.loop, dif_neg h]
    simp
  | succ n ih =>
    intro index acc hn
    by_cases h : index < calendar.length
    · obtain ⟨last, _, hstep⟩ := mergeIntervalsInCalendar.loop_step calendar index acc h
      have hb := mergeIntervalsInCalendar.skip_bounds calendar calendar[index].2
        (calendar.length - (index + 1)) (index + 1) (Nat.le_refl _)
      obtain ⟨out, hout, _⟩ := ih
        (mergeIntervalsInCalendar.skip calendar calendar[index].2 (index + 1))
        (acc ++ [(calendar[index].1,
              if Time.gt calendar[index].2 last.2 then calendar[index].2 else last.2)])
        (by omega)
      refine ⟨(calendar[index].1,
          if Time.gt calendar[index].2 last.2 then calendar[index].2 else last.2) :: out,
        ?_, fun _ => ⟨_, out, rfl⟩⟩
      rw [hstep, hout]
      simp
    · refine ⟨[], ?_, fun h' => absurd h' h⟩
      rw [mergeIntervalsInCalendar.loop, dif_neg h]
      simp

theorem mergeIntervalsInCalendar.loop_separated (calendar : List Interval)
    (hsep : StrictlySeparated calendar) :
    ∀ (n index : Nat) (finalCalendar : List Interval), calendar.length - index ≤ n →
      mergeIntervalsInCalendar.loop calendar index finalCalendar
        = some (finalCalendar ++ calendar.drop index) := by
  have hadj : ∀ i (h : i + 1 < calendar.length),
      Time.lt (calendar[i]).2 (calendar[i + 1]).1 = true := by
    intro i h
    have := (List.chain'_iff_get.mp hsep) i (by omega)
    simpa using this
  intro n
  induction n with
  | zero =>
    intro index acc hn
    have h : ¬ index < calendar.length := by omega
    rw [mergeIntervalsInCalendar.loop, dif_neg h, List.drop_of_length_le (by omega)]
    simp
  | succ n ih =>
    intro index acc hn
    by_cases h : index < calendar.length
    · have hskip : mergeIntervalsInCalendar.skip calendar calendar[index].2 (index + 1)
          = index + 1 := by
        apply mergeIntervalsInCalendar.skip_stop
        intro h'
        rw [Time.ge_eq_not_lt, hadj index h']
        rfl
      obtain ⟨last, hlast, hstep⟩ := mergeIntervalsInCalendar.loop_step calendar index acc h
      rw [hskip] at hlast hstep
      simp only [Nat.add_sub_cancel, List.getElem?_eq_getElem h, Option.some.injEq] at hlast
      subst hlast
      rw [hstep, ih (index + 1) _ (by omega), List.drop_eq_getElem_cons h]
      simp
    · rw [mergeIntervalsInCalendar.loop, dif_neg h, List.drop_of_length_le (by omega)]
      simp

theorem mergeCalendars_ne_nil (A B : List Interval) (h : A ≠ [] ∨ B ≠ []) :
    mergeCalendars A B ≠ [] := by
  intro hnil
  have hlen : (mergeCalendars A B).length = A.length + B.length := by
    have hp : (mergeCalendars A B).Perm (A ++ B) := by
      rw [mergeCalendars_eq_merge]
      exact List.merge_perm_append takeLeft
    simpa using hp.length_eq
  rw [hnil] at hlen
  simp only [List.length_nil] at hlen
  rcases h with h | h
  · exact h (List.length_eq_zero.mp (by omega))
  · exact h (List.length_eq_zero.mp (by omega))

theorem mergeIntervalsInCalendar_total (calendar : List Interval) :
    ∃ out, mergeIntervalsInCalendar calendar = some out
      ∧ ∀ hne : calendar ≠ [], ∃ hout : out ≠ [],
          (out.head hout).1 = (calendar.head hne).1 := by
  obtain ⟨out, hout, hhead⟩ :=
    mergeIntervalsInCalendar.loop_total calendar calendar.length 0 [] (by omega)
  refine ⟨out, by simpa [mergeIntervalsInCalendar] using hout, ?_⟩
  intro hne
  have hpos : 0 < calendar.length := List.length_pos.mpr hne
  obtain ⟨e, rest, rfl⟩ := hhead hpos
  refine ⟨List.cons_ne_nil _ _, ?_⟩
  cases calendar with
  | nil => exact absurd rfl hne
  | cons a l => rfl

/-! ## Sources of the merged intervals -/

theorem merge_map_fst : ∀ (L R : List (Interval × Bool)),
    (List.merge L R (fun x y => takeLeft x.1 y.1)).map Prod.fst
      = List.merge (L.map Prod.fst) (R.map Prod.fst) takeLeft
  | [], R => by simp
  | x :: L, [] => by simp
  | x :: L, y :: R => by
    rw [List.cons_merge_cons, List.map_cons, List.map_cons, List.cons_merge_cons]
    split
    · rw [List.map_cons, merge_map_fst L (y :: R), List.map_cons]
    · rw [List.map_cons, merge_map_fst (x :: L) R, List.map_cons]
termination_by L R => L.length + R.length

theorem merge_filter_sources : ∀ (L R : List (Interval × Bool)),
    (∀ x ∈ L, x.2 = false) → (∀ y ∈ R, y.2 = true) →
    (List.merge L R (fun x y => takeLeft x.1 y.1)).filter (fun x => !x.2) = L
      ∧ (List.merge L R (fun x y => takeLeft x.1 y.1)).filter (fun x => x.2) = R
  | [], R, _, hR => by
    simp only [List.nil_merge, List.filter_eq_nil_iff, List.filter_eq_self]
    exact ⟨fun y hy => by simp [hR y hy], hR⟩
  | x :: L, [], hL, _ => by
    simp only [List.merge_right, List.filter_eq_nil_iff, List.filter_eq_self]
    exact ⟨fun y hy => by simp [hL y hy], fun y hy => by simp [hL y hy]⟩
  | x :: L, y :: R, hL, hR => by
    have hx : x.2 = false := hL x (List.mem_cons_self _ _)
    have hy : y.2 = true := hR y (List.mem_cons_self _ _)
    rw [List.cons_merge_cons]
    split
    · have ih := merge_filter_sources L (y :: R)
        (fun z hz => hL z (List.mem_cons_of_mem _ hz)) hR
      simp [List.filter_cons, hx, ih.1, ih.2]
    · have ih := merge_filter_sources (x :: L) R hL
        (fun z hz => hR z (List.mem_cons_of_mem _ hz))
      simp [List.filter_cons, hy, ih.1, ih.2]
termination_by L R => L.length + R.length

theorem merge_ties_second_first : ∀ (L R : List (Interval × Bool)),
    (∀ x ∈ L, x.2 = false) → (∀ y ∈ R, y.2 = true) →
    (R.map Prod.fst).Pairwise StartLE →
    (List.merge L R (fun x y => takeLeft x.1 y.1)).Pairwise
      (fun x y => x.1.1 = y.1.1 → ¬ (x.2 = false ∧ y.2 = true))
  | [], R, _, hR, _ => by
    rw [List.nil_merge]
    refine List.pairwise_of_forall_mem_list ?_
    intro x hx y _ _ h
    rw [hR x hx] at h
    exact Bool.noConfusion h.1
  | x :: L, [], hL, _, _ => by
    rw [List.merge_right]
    refine List.pairwise_of_forall_mem_list ?_
    intro a _ b hb _ h
    rw [hL b hb] at h
    exact Bool.noConfusion h.2
  | x :: L, y :: R, hL, hR, hs => by
    have hy : y.2 = true := hR y (List.mem_cons_self _ _)
    have hs' := List.pairwise_cons.mp (by simpa using hs : List.Pairwise StartLE (y.1 :: R.map Prod.fst))
    rw [List.cons_merge_cons]
    split
    · rename_i hlt
      refine List.pairwise_cons.mpr ⟨?_, merge_ties_second_first L (y :: R)
        (fun z hz => hL z (List.mem_cons_of_mem _ hz)) hR hs⟩
      intro z hz heq h
      rcases List.mem_merge.mp hz with hz | hz
      · rw [hL z (List.mem_cons_of_mem _ hz)] at h
        exact Bool.noConfusion h.2
      · have hxy : Time.lt x.1.1 y.1.1 = true := by simpa [takeLeft] using hlt
        have hyz : Time.ge z.1.1 y.1.1 = true := by
          rcases List.mem_cons.mp hz with rfl | hz'
          · exact Time.ge_refl _
          · exact hs'.1 z.1 (List.mem_map_of_mem _ hz')
        rw [heq] at hxy
        rw [Time.ge_eq_not_lt, hxy] at hyz
        exact Bool.noConfusion hyz
    · refine List.pairwise_cons.mpr ⟨?_, merge_ties_second_first (x :: L) R hL
        (fun z hz => hR z (List.mem_cons_of_mem _ hz)) hs'.2⟩
      intro z _ _ h
      rw [hy] at h
      exact Bool.noConfusion h.1
termination_by L R => L.length + R.length

/-! ## The threshold of the slot finder -/

theorem middleGaps_sublist (m m' : Int) (lo hi : Time) (calendar : List Interval)
    (hle : m ≤ m') :
    (middleGaps m' lo hi calendar).Sublist (middleGaps m lo hi calendar) := by
  unfold middleGaps
  refine List.Sublist.map _ (List.monotone_filter_right _ ?_)
  intro pc h
  simp only [decide_eq_true_eq] at h ⊢
  omega

/-! ## The slot finder on a calendar inside the common window -/

theorem Time.max_eq_right {a b : Time} (h : Time.ge b a = true) : Time.max a b = b := by
  unfold Time.max
  split
  · rfl
  · rename_i hlt
    exact Time.eq_of_not_lt (by simpa using hlt) (Time.not_lt_of_ge h)

theorem Time.min_eq_right {a b : Time} (h : Time.ge a b = true) : Time.min a b = b := by
  unfold Time.min
  split
  · rfl
  · rename_i hlt
    exact Time.eq_of_not_lt (Time.not_lt_of_ge h) (by simpa using hlt)

theorem Time.ge_of_ge_of_lt {a b c : Time} (hba : Time.ge b a = true)
    (hbc : Time.lt b c = true) : Time.ge c a = true := by
  rw [Time.ge_iff] at *
  rw [Time.lt_iff] at hbc
  omega

theorem pairwise_startLE_of_separated (l : List Interval) (hvalid : ValidIntervals l)
    (hsep : StrictlySeparated l) : l.Pairwise StartLE := by
  have hchain : l.Chain' StartLE := by
    refine (List.Chain'.iff_mem.mp hsep).imp ?_
    intro a b h
    exact Time.ge_of_ge_of_lt (hvalid a h.1) h.2.2
  exact (sortedByStart_iff_pairwise l).mp hchain

theorem chain_zip_tail {R : Interval → Interval → Prop} :
    ∀ (l : List Interval), l.Chain' R → ∀ pc ∈ l.zip l.tail, R pc.1 pc.2
  | [], _ => by simp
  | [_], _ => by simp
  | x :: y :: rest, h => by
    intro pc hpc
    have h' := List.chain'_cons.mp h
    simp only [List.tail_cons, List.zip_cons_cons, List.mem_cons] at hpc
    rcases hpc with rfl | hpc
    · exact h'.1
    · exact chain_zip_tail (y :: rest) h'.2 pc hpc

theorem zip_tail_pairwise : ∀ (l : List Interval), ValidIntervals l → l.Pairwise StartLE →
    (l.zip l.tail).Pairwise (fun pc pc' => Time.ge pc'.1.2 pc.2.1 = true)
  | [], _, _ => by simp
  | [_], _, _ => by simp
  | x :: y :: rest, hv, hs => by
    have hs' := List.pairwise_cons.mp hs
    simp only [List.tail_cons, List.zip_cons_cons]
    refine List.pairwise_cons.mpr ⟨?_, ?_⟩
    · intro pc hpc
      have hmem : pc.1 ∈ y :: rest := (List.of_mem_zip hpc).1
      have hv1 : Time.ge pc.1.2 pc.1.1 = true := hv pc.1 (List.mem_cons_of_mem _ hmem)
      have hs1 : Time.ge pc.1.1 y.1 = true := by
        rcases List.mem_cons.mp hmem with h | h
        · rw [h]
          exact Time.ge_refl _
        · exact (List.pairwise_cons.mp hs'.2).1 pc.1 h
      exact Time.ge_trans hv1 hs1
    · exact zip_tail_pairwise (y :: rest) (fun iv h => hv iv (List.mem_cons_of_mem _ h)) hs'.2


theorem middleGaps_eq_rawGaps (minutes : Int) (lo hi : Time) (calendar : List Interval)
    (hlo : ∀ x ∈ calendar, Time.ge x.2 lo = true)
    (hhi : ∀ x ∈ calendar, Time.ge hi x.1 = true) :
    middleGaps minutes lo hi calendar = rawGaps minutes calendar := by
  unfold middleGaps rawGaps
  refine List.map_congr_left ?_
  intro pc hpc
  have hz := List.of_mem_zip (List.mem_filter.mp hpc).1
  rw [Time.max_eq_right (hlo pc.1 hz.1),
    Time.min_eq_right (hhi pc.2 (List.mem_of_mem_tail hz.2))]

/-- The slot finder on a valid, strictly separated calendar that lies inside the common
window: the shape of the result and its order. -/
theorem findPossibleSlots_inside (calendar : List Interval) (minutes : Int)
    (window1 window2 : Interval) (hne : calendar ≠ [])
    (hvalid : ValidIntervals calendar) (hsep : StrictlySeparated calendar)
    (hlo : Time.ge (calendar.head hne).1 (lowerBound window1 window2) = true)
    (hhi : Time.ge (upperBound window1 window2) (calendar.getLast hne).2 = true) :
    findPossibleSlots calendar minutes window1 window2
        = some (leadingGap (lowerBound window1 window2) (calendar.head hne)
            ++ rawGaps minutes calendar
            ++ trailingGap (upperBound window1 window2) (calendar.getLast hne))
      ∧ (∀ slot ∈ rawGaps minutes calendar, Time.sub slot.2 slot.1 ≥ minutes)
      ∧ (∀ slot ∈ leadingGap (lowerBound window1 window2) (calendar.head hne)
            ++ rawGaps minutes calendar
            ++ trailingGap (upperBound window1 window2) (calendar.getLast hne),
          Time.ge slot.2 slot.1 = true
            ∧ Time.ge slot.1 (lowerBound window1 window2) = true
            ∧ Time.ge (upperBound window1 window2) slot.2 = true)
      ∧ (leadingGap (lowerBound window1 window2) (calendar.head hne)
            ++ rawGaps minutes calendar
            ++ trailingGap (upperBound window1 window2) (calendar.getLast hne)).Pairwise
          (fun slot next => Time.ge next.1 slot.2 = true) := by
  have hs : calendar.Pairwise StartLE := pairwise_startLE_of_separated calendar hvalid hsep
  have he : calendar.Pairwise EndLE := pairwise_endLE_of_separated calendar hvalid hsep
  have hfirst : calendar.head hne ∈ calendar := List.head_mem hne
  have hlast : calendar.getLast hne ∈ calendar := List.getLast_mem hne
  have f1 := head_startLE calendar hne hs
  have f2 := endLE_getLast calendar hne he
  have f3 : ∀ x ∈ calendar, Time.ge x.2 (lowerBound window1 window2) = true := fun x hx =>
    Time.ge_trans (hvalid x hx) (Time.ge_trans (f1 x hx) hlo)
  have f4 : ∀ x ∈ calendar, Time.ge (upperBound window1 window2) x.1 = true := fun x hx =>
    Time.ge_trans hhi (Time.ge_trans (f2 x hx) (hvalid x hx))
  have hraw : ∀ slot ∈ rawGaps minutes calendar, ∃ p ∈ calendar, ∃ c ∈ calendar,
      slot = (p.2, c.1) ∧ Time.lt p.2 c.1 = true ∧ Time.sub c.1 p.2 ≥ minutes := by
    intro slot hslot
    obtain ⟨pc, hpc, rfl⟩ := List.mem_map.mp hslot
    have hf := List.mem_filter.mp hpc
    have hz := List.of_mem_zip hf.1
    exact ⟨pc.1, hz.1, pc.2, List.mem_of_mem_tail hz.2, rfl,
      chain_zip_tail calendar hsep pc hf.1, by simpa using hf.2⟩
  have hlead : ∀ slot ∈ leadingGap (lowerBound window1 window2) (calendar.head hne),
      slot = (lowerBound window1 window2, (calendar.head hne).1)
        ∧ Time.lt (lowerBound window1 window2) (calendar.head hne).1 = true := by
    intro slot hslot
    unfold leadingGap at hslot
    split at hslot
    · rename_i h
      exact ⟨List.mem_singleton.mp hslot, h⟩
    · simp at hslot
  have htrail : ∀ slot ∈ trailingGap (upperBound window1 window2) (calendar.getLast hne),
      slot = ((calendar.getLast hne).2, upperBound window1 window2) := by
    intro slot hslot
    unfold trailingGap at hslot
    split at hslot
    · exact List.mem_singleton.mp hslot
    · simp at hslot
  refine ⟨?_, ?_, ?_, ?_⟩
  · rw [findPossibleSlots_eq_gaps calendar minutes window1 window2 hne,
      middleGaps_eq_rawGaps minutes _ _ calendar f3 f4]
  · intro slot hslot
    obtain ⟨p, _, c, _, rfl, _, hdur⟩ := hraw slot hslot
    exact hdur
  · intro slot hslot
    rcases List.mem_append.mp hslot with hslot | hslot
    · rcases List.mem_append.mp hslot with hslot | hslot
      · obtain ⟨rfl, hlt⟩ := hlead slot hslot
        exact ⟨Time.ge_of_lt hlt, Time.ge_refl _, f4 _ hfirst⟩
      · obtain ⟨p, hp, c, hc, rfl, hlt, _⟩ := hraw slot hslot
        exact ⟨Time.ge_of_lt hlt, f3 p hp, f4 c hc⟩
    · rw [htrail slot hslot]
      exact ⟨hhi, f3 _ hlast, Time.ge_refl _⟩
  · refine List.pairwise_append.mpr ⟨List.pairwise_append.mpr ⟨?_, ?_, ?_⟩, ?_, ?_⟩
    · unfold leadingGap
      split <;> simp
    · unfold rawGaps
      refine List.Pairwise.map _ ?_ ((zip_tail_pairwise calendar hvalid hs).filter _)
      intro a b h
      exact h
    · intro a ha b hb
      obtain ⟨rfl, _⟩ := hlead a ha
      obtain ⟨p, hp, c, _, rfl, _, _⟩ := hraw b hb
      exact Time.ge_trans (hvalid p hp) (f1 p hp)
    · unfold trailingGap
      split <;> simp
    · intro a ha b hb
      rw [htrail b hb]
      rcases List.mem_append.mp ha with ha | ha
      · obtain ⟨rfl, _⟩ := hlead a ha
        exact Time.ge_trans (f2 _ hfirst) (hvalid _ hfirst)
      · obtain ⟨p, _, c, hc, rfl, _, _⟩ := hraw a ha
        exact Time.ge_trans (f2 c hc) (hvalid c hc)

/-! ## `Time::operator-` beyond the 32-bit range -/

/-- The difference 40000000:00 - 0:00 is 2400000000 minutes, which does not fit in an
`int`: the program computes -1894967296. -/
theorem Time.sub_wraps : Time.sub (hm 40000000 0) (hm 0 0) = -1894967296 := by
  simp [Time.sub, int32, hm]

/-- On the calendar [(0:00,0:00),(40000000:00,40000000:00)] with both windows
(0:00,50000000:00) and `minutes = 1` the wrapped raw gap is negative, so the middle slot
is not emitted and only the trailing slot is returned. -/
theorem findPossibleSlots_wrapped_gap :
    findPossibleSlots [(hm 0 0, hm 0 0), (hm 40000000 0, hm 40000000 0)] 1
        (hm 0 0, hm 50000000 0) (hm 0 0, hm 50000000 0)
      = some [(hm 40000000 0, hm 50000000 0)] := by
  simp [findPossibleSlots, findPossibleSlots.scan, Time.lt, Time.gt, Time.sub, int32, hm]

/-- For the fields the parser produces (`0..99`) the difference is the exact signed
minute count. -/
theorem Time.sub_eq_of_parsed (a b : Time)
    (ha : 0 ≤ a.hours ∧ a.hours ≤ 99 ∧ 0 ≤ a.minutes ∧ a.minutes ≤ 99)
    (hb : 0 ≤ b.hours ∧ b.hours ≤ 99 ∧ 0 ≤ b.minutes ∧ b.minutes ≤ 99) :
    Time.sub a b = (a.hours - b.hours) * 60 + (a.minutes - b.minutes) := by
  apply Time.sub_eq_of_fits <;> omega

/-! ## Claims -/

/-- C1 fails on the code. With A = [(9:00,10:00),(11:00,12:00)] and B = [(9:30,15:00)]
(both sorted, every interval with `start <= end`), windows (8:00,18:00) and `minutes = 30`,
the pipeline returns the slot (12:00,18:00), which overlaps the busy interval
(9:30,15:00) of B. -/
theorem mainPipeline_slot_overlaps_busy :
    SortedByStart [(hm 9 0, hm 10 0), (hm 11 0, hm 12 0)]
      ∧ SortedByStart [(hm 9 30, hm 15 0)]
      ∧ ValidIntervals [(hm 9 0, hm 10 0), (hm 11 0, hm 12 0)]
      ∧ ValidIntervals [(hm 9 30, hm 15 0)]
      ∧ mainPipeline [(hm 9 0, hm 10 0), (hm 11 0, hm 12 0)] [(hm 9 30, hm 15 0)]
          (hm 8 0, hm 18 0) (hm 8 0, hm 18 0) 30
        = some [(hm 8 0, hm 9 0), (hm 12 0, hm 18 0)]
      ∧ Overlaps (hm 12 0, hm 18 0) (hm 9 30, hm 15 0) := by
  refine ⟨?_, ?_, ?_, ?_, ?_, ?_⟩
  · simp [SortedByStart, StartLE, Time.ge, hm]
  · simp [SortedByStart]
  · simp [ValidIntervals, Time.ge, hm]
  · simp [ValidIntervals, Time.ge, hm]
  · simp [mainPipeline, mergeCalendars, mergeCalendars.both, mergeCalendars.rest,
      mergeIntervalsInCalendar, mergeIntervalsInCalendar.loop, mergeIntervalsInCalendar.skip,
      findPossibleSlots, findPossibleSlots.scan, Time.lt, Time.gt, Time.ge, Time.sub, int32, hm]
  · simp [Overlaps, Time.lt, hm]

/-- C2 fails on the code. On the sorted input [(9:00,12:00),(9:30,15:00),(10:00,11:00)]
`mergeIntervalsInCalendar` returns [(9:00,12:00)], and the input interval (9:30,15:00) is
contained in no interval of the output. -/
theorem mergeIntervalsInCalendar_loses_coverage :
    SortedByStart [(hm 9 0, hm 12 0), (hm 9 30, hm 15 0), (hm 10 0, hm 11 0)]
      ∧ ValidIntervals [(hm 9 0, hm 12 0), (hm 9 30, hm 15 0), (hm 10 0, hm 11 0)]
      ∧ mergeIntervalsInCalendar [(hm 9 0, hm 12 0), (hm 9 30, hm 15 0), (hm 10 0, hm 11 0)]
        = some [(hm 9 0, hm 12 0)]
      ∧ ∀ out ∈ [(hm 9 0, hm 12 0)], ¬ Contains out (hm 9 30, hm 15 0) := by
  refine ⟨?_, ?_, ?_, ?_⟩
  · simp [SortedByStart, StartLE, Time.ge, hm]
  · simp [ValidIntervals, Time.ge, hm]
  · simp [mergeIntervalsInCalendar, mergeIntervalsInCalendar.loop,
      mergeIntervalsInCalendar.skip, Time.gt, Time.ge, hm]
  · simp [Contains, Time.ge, hm]

/-- C3 fails on the code. On the sorted input [(9:00,10:00),(9:30,15:00),(11:00,12:00)]
`mergeIntervalsInCalendar` returns [(9:00,15:00),(11:00,12:00)], whose two intervals
overlap: the output is not strictly separated. -/
theorem mergeIntervalsInCalendar_output_overlaps :
    SortedByStart [(hm 9 0, hm 10 0), (hm 9 30, hm 15 0), (hm 11 0, hm 12 0)]
      ∧ ValidIntervals [(hm 9 0, hm 10 0), (hm 9 30, hm 15 0), (hm 11 0, hm 12 0)]
      ∧ mergeIntervalsInCalendar [(hm 9 0, hm 10 0), (hm 9 30, hm 15 0), (hm 11 0, hm 12 0)]
        = some [(hm 9 0, hm 15 0), (hm 11 0, hm 12 0)]
      ∧ ¬ StrictlySeparated [(hm 9 0, hm 15 0), (hm 11 0, hm 12 0)]
      ∧ Overlaps (hm 9 0, hm 15 0) (hm 11 0, hm 12 0) := by
  refine ⟨?_, ?_, ?_, ?_, ?_⟩
  · simp [SortedByStart, StartLE, Time.ge, hm]
  · simp [ValidIntervals, Time.ge, hm]
  · simp [mergeIntervalsInCalendar, mergeIntervalsInCalendar.loop,
      mergeIntervalsInCalendar.skip, Time.gt, Time.ge, hm]
  · simp [StrictlySeparated, Time.lt, hm]
  · simp [Overlaps, Time.lt, hm]

/-- C4 fails on the code. On the sorted input [(12:00,13:00),(12:30,14:30),(14:30,15:00)]
`mergeIntervalsInCalendar` returns [(12:00,14:30),(14:30,15:00)], and applied to that
output it returns [(12:00,15:00)]: the output is not a fixed point. -/
theorem mergeIntervalsInCalendar_not_idempotent :
    SortedByStart [(hm 12 0, hm 13 0), (hm 12 30, hm 14 30), (hm 14 30, hm 15 0)]
      ∧ ValidIntervals [(hm 12 0, hm 13 0), (hm 12 30, hm 14 30), (hm 14 30, hm 15 0)]
      ∧ mergeIntervalsInCalendar [(hm 12 0, hm 13 0), (hm 12 30, hm 14 30), (hm 14 30, hm 15 0)]
        = some [(hm 12 0, hm 14 30), (hm 14 30, hm 15 0)]
      ∧ mergeIntervalsInCalendar [(hm 12 0, hm 14 30), (hm 14 30, hm 15 0)]
        = some [(hm 12 0, hm 15 0)]
      ∧ [(hm 12 0, hm 15 0)] ≠ [(hm 12 0, hm 14 30), (hm 14 30, hm 15 0)] := by
  refine ⟨?_, ?_, ?_, ?_, ?_⟩
  · simp [SortedByStart, StartLE, Time.ge, hm]
  · simp [ValidIntervals, Time.ge, hm]
  · simp [mergeIntervalsInCalendar, mergeIntervalsInCalendar.loop,
      mergeIntervalsInCalendar.skip, Time.gt, Time.ge, hm]
  · simp [mergeIntervalsInCalendar, mergeIntervalsInCalendar.loop,
      mergeIntervalsInCalendar.skip, Time.gt, Time.ge, hm]
  · simp

/-- C5. Merge keeps everything: for all interval lists `A` and `B`, sorted or not,
`mergeCalendars A B` is a permutation of `A ++ B`, and its length is `|A| + |B|`. -/
theorem mergeCalendars_perm (A B : List Interval) :
    (mergeCalendars A B).Perm (A ++ B)
      ∧ (mergeCalendars A B).length = A.length + B.length := by
  have hp : (mergeCalendars A B).Perm (A ++ B) := by
    rw [mergeCalendars_eq_merge]
    exact List.merge_perm_append takeLeft
  exact ⟨hp, by simpa using hp.length_eq⟩

/-- C6. Merge sortedness: if `A` and `B` are each sorted ascending by start
(non-strictly), then `mergeCalendars A B` is sorted ascending by start. -/
theorem mergeCalendars_sorted (A B : List Interval)
    (hA : SortedByStart A) (hB : SortedByStart B) :
    SortedByStart (mergeCalendars A B) := by
  rw [sortedByStart_iff_pairwise] at *
  rw [mergeCalendars_eq_merge]
  exact merge_pairwise_startLE A B hA hB

/-- Witness of C6 on the calendars [(9:00,10:30),(12:00,13:00)] and
[(9:00,9:30),(12:00,12:30)]. -/
theorem mergeCalendars_sorted_witness :
    SortedByStart [(hm 9 0, hm 10 30), (hm 12 0, hm 13 0)]
      ∧ SortedByStart [(hm 9 0, hm 9 30), (hm 12 0, hm 12 30)]
      ∧ SortedByStart
          (mergeCalendars [(hm 9 0, hm 10 30), (hm 12 0, hm 13 0)]
            [(hm 9 0, hm 9 30), (hm 12 0, hm 12 30)]) :=
  ⟨by simp [SortedByStart, StartLE, Time.ge, hm], by simp [SortedByStart, StartLE, Time.ge, hm],
    mergeCalendars_sorted _ _ (by simp [SortedByStart, StartLE, Time.ge, hm])
      (by simp [SortedByStart, StartLE, Time.ge, hm])⟩

/-- C7 fails on the code. On the coalesced calendar [(9:00,10:00)] with both windows
(8:30,17:00) and `minutes = 60`, `findPossibleSlots` returns the leading slot
(8:30,9:00), which is 30 minutes long. -/
theorem findPossibleSlots_short_leading_slot :
    SortedByStart [(hm 9 0, hm 10 0)]
      ∧ ValidIntervals [(hm 9 0, hm 10 0)]
      ∧ StrictlySeparated [(hm 9 0, hm 10 0)]
      ∧ findPossibleSlots [(hm 9 0, hm 10 0)] 60 (hm 8 30, hm 17 0) (hm 8 30, hm 17 0)
        = some [(hm 8 30, hm 9 0), (hm 10 0, hm 17 0)]
      ∧ Time.sub (hm 9 0) (hm 8 30) = 30
      ∧ ¬ (Time.sub (hm 9 0) (hm 8 30) ≥ 60) := by
  refine ⟨?_, ?_, ?_, ?_, ?_, ?_⟩
  · simp [SortedByStart]
  · simp [ValidIntervals, Time.ge, hm]
  · simp [StrictlySeparated]
  · simp [findPossibleSlots, findPossibleSlots.scan, Time.lt, Time.gt, hm]
  · simp [Time.sub, int32, hm]
  · simp [Time.sub, int32, hm]

/-- C8 fails on the code. On the coalesced calendar [(7:00,8:00)] with both windows
(9:00,17:00) and `minutes = 30`, `findPossibleSlots` returns the trailing slot
(8:00,17:00), which starts before `lowerBound = 9:00`. -/
theorem findPossibleSlots_slot_outside_window :
    SortedByStart [(hm 7 0, hm 8 0)]
      ∧ ValidIntervals [(hm 7 0, hm 8 0)]
      ∧ StrictlySeparated [(hm 7 0, hm 8 0)]
      ∧ findPossibleSlots [(hm 7 0, hm 8 0)] 30 (hm 9 0, hm 17 0) (hm 9 0, hm 17 0)
        = some [(hm 8 0, hm 17 0)]
      ∧ lowerBound (hm 9 0, hm 17 0) (hm 9 0, hm 17 0) = hm 9 0
      ∧ ¬ (Time.ge (hm 8 0) (lowerBound (hm 9 0, hm 17 0) (hm 9 0, hm 17 0)) = true) := by
  refine ⟨?_, ?_, ?_, ?_, ?_, ?_⟩
  · simp [SortedByStart]
  · simp [ValidIntervals, Time.ge, hm]
  · simp [StrictlySeparated]
  · simp [findPossibleSlots, findPossibleSlots.scan, Time.lt, Time.gt, hm]
  · simp [lowerBound, Time.max, Time.lt, hm]
  · simp [lowerBound, Time.max, Time.lt, Time.ge, hm]

/-- C9. Slot/busy non-overlap on the coalesced calendar: for a non-empty calendar that is
sorted by start, has `start <= end` in every interval and `prev.end < next.start` for every
adjacent pair, `findPossibleSlots` returns a list of slots, and no returned slot overlaps
any busy interval of the calendar. -/
theorem findPossibleSlots_no_overlap (calendar : List Interval) (minutes : Int)
    (window1 window2 : Interval) (hne : calendar ≠ [])
    (hsorted : SortedByStart calendar) (hvalid : ValidIntervals calendar)
    (hsep : StrictlySeparated calendar) :
    ∃ slots, findPossibleSlots calendar minutes window1 window2 = some slots
      ∧ ∀ slot ∈ slots, ∀ busy ∈ calendar, ¬ Overlaps slot busy := by
  refine ⟨_, findPossibleSlots_eq_gaps calendar minutes window1 window2 hne, ?_⟩
  have hs : calendar.Pairwise StartLE := (sortedByStart_iff_pairwise calendar).mp hsorted
  have he : calendar.Pairwise EndLE := pairwise_endLE_of_separated calendar hvalid hsep
  intro slot hslot busy hbusy hov
  rcases List.mem_append.mp hslot with hslot | hslot
  · rcases List.mem_append.mp hslot with hslot | hslot
    · unfold leadingGap at hslot
      split at hslot
      · rw [List.mem_singleton.mp hslot] at hov
        have := Time.not_lt_of_ge (head_startLE calendar hne hs busy hbusy)
        rw [Overlaps, this] at hov
        exact Bool.false_ne_true hov.2
      · simp at hslot
    · unfold middleGaps at hslot
      obtain ⟨pc, hpc, rfl⟩ := List.mem_map.mp hslot
      have hpc' := (List.mem_filter.mp hpc).1
      rcases adjacent_split calendar hs he pc hpc' busy hbusy with h | h
      · have := Time.not_lt_of_ge (Time.ge_trans (Time.max_ge_right (lowerBound window1 window2) pc.1.2) h)
        rw [Overlaps, this] at hov
        exact Bool.false_ne_true hov.1
      · have := Time.not_lt_of_ge (Time.ge_trans h (Time.ge_min_right (upperBound window1 window2) pc.2.1))
        rw [Overlaps, this] at hov
        exact Bool.false_ne_true hov.2
  · unfold trailingGap at hslot
    split at hslot
    · rw [List.mem_singleton.mp hslot] at hov
      have := Time.not_lt_of_ge (endLE_getLast calendar hne he busy hbusy)
      rw [Overlaps, this] at hov
      exact Bool.false_ne_true hov.1
    · simp at hslot



/-- Witness of C9 on the calendar [(9:00,10:00),(13:00,14:00)] with both windows
(9:00,17:00) and `minutes = 60`. -/
theorem findPossibleSlots_no_overlap_witness :
    [(hm 9 0, hm 10 0), (hm 13 0, hm 14 0)] ≠ []
      ∧ SortedByStart [(hm 9 0, hm 10 0), (hm 13 0, hm 14 0)]
      ∧ ValidIntervals [(hm 9 0, hm 10 0), (hm 13 0, hm 14 0)]
      ∧ StrictlySeparated [(hm 9 0, hm 10 0), (hm 13 0, hm 14 0)]
      ∧ ∃ slots, findPossibleSlots [(hm 9 0, hm 10 0), (hm 13 0, hm 14 0)] 60
            (hm 9 0, hm 17 0) (hm 9 0, hm 17 0) = some slots
          ∧ ∀ slot ∈ slots, ∀ busy ∈ [(hm 9 0, hm 10 0), (hm 13 0, hm 14 0)],
              ¬ Overlaps slot busy :=
  ⟨by simp, by simp [SortedByStart, StartLE, Time.ge, hm],
    by simp [ValidIntervals, Time.ge, hm], by simp [StrictlySeparated, Time.lt, hm],
    findPossibleSlots_no_overlap _ 60 _ _ (by simp)
      (by simp [SortedByStart, StartLE, Time.ge, hm])
      (by simp [ValidIntervals, Time.ge, hm]) (by simp [StrictlySeparated, Time.lt, hm])⟩

/-- C10. Slot Finder equals its specified algorithm: for every non-empty calendar,
windows and `minutes`, `findPossibleSlots` returns exactly the concatenation of the
leading gap, the middle gaps and the trailing gap of the specification; the leading and
the trailing gap are functions of the bounds and of the first and last busy interval
only, not of `minutes`. The raw gap `curr.start - prev.end` tested in the middle part is
`Time::operator-`, a 32-bit `int`; whenever the signed minute count
`(curr.start.hours - prev.end.hours) * 60 + (curr.start.minutes - prev.end.minutes)` fits
in 32 bits, it is that count. -/
theorem findPossibleSlots_eq_spec (calendar : List Interval) (minutes : Int)
    (window1 window2 : Interval) (hne : calendar ≠ []) :
    findPossibleSlots calendar minutes window1 window2
        = some (leadingGap (lowerBound window1 window2) (calendar.head hne)
            ++ middleGaps minutes (lowerBound window1 window2) (upperBound window1 window2)
              calendar
            ++ trailingGap (upperBound window1 window2) (calendar.getLast hne))
      ∧ ∀ prev curr : Interval,
          -2147483648
              ≤ (curr.1.hours - prev.2.hours) * 60 + (curr.1.minutes - prev.2.minutes) →
          (curr.1.hours - prev.2.hours) * 60 + (curr.1.minutes - prev.2.minutes)
              < 2147483648 →
          Time.sub curr.1 prev.2
            = (curr.1.hours - prev.2.hours) * 60 + (curr.1.minutes - prev.2.minutes) :=
  ⟨findPossibleSlots_eq_gaps calendar minutes window1 window2 hne,
    fun prev curr hlo hhi => Time.sub_eq_of_fits curr.1 prev.2 hlo hhi⟩

/-- Witness of C10 on the calendar [(9:00,10:00),(13:00,14:00)] with both windows
(9:00,17:00) and `minutes = 60`. -/
theorem findPossibleSlots_eq_spec_witness :
    [(hm 9 0, hm 10 0), (hm 13 0, hm 14 0)] ≠ []
      ∧ findPossibleSlots [(hm 9 0, hm 10 0), (hm 13 0, hm 14 0)] 60
          (hm 9 0, hm 17 0) (hm 9 0, hm 17 0)
        = some (leadingGap (lowerBound (hm 9 0, hm 17 0) (hm 9 0, hm 17 0))
              ([(hm 9 0, hm 10 0), (hm 13 0, hm 14 0)].head (by simp))
            ++ middleGaps 60 (lowerBound (hm 9 0, hm 17 0) (hm 9 0, hm 17 0))
              (upperBound (hm 9 0, hm 17 0) (hm 9 0, hm 17 0))
              [(hm 9 0, hm 10 0), (hm 13 0, hm 14 0)]
            ++ trailingGap (upperBound (hm 9 0, hm 17 0) (hm 9 0, hm 17 0))
              ([(hm 9 0, hm 10 0), (hm 13 0, hm 14 0)].getLast (by simp)))
      ∧ ∀ prev curr : Interval,
          -2147483648
              ≤ (curr.1.hours - prev.2.hours) * 60 + (curr.1.minutes - prev.2.minutes) →
          (curr.1.hours - prev.2.hours) * 60 + (curr.1.minutes - prev.2.minutes)
              < 2147483648 →
          Time.sub curr.1 prev.2
            = (curr.1.hours - prev.2.hours) * 60 + (curr.1.minutes - prev.2.minutes) :=
  ⟨by simp, findPossibleSlots_eq_spec _ 60 _ _ (by simp)⟩

/-- C11 fails on the code. On the coalesced calendar [(7:00,8:00),(8:30,9:00)] with both
windows (10:00,17:00) and `minutes = 30`, `findPossibleSlots` returns
[(10:00,8:30),(9:00,17:00)]: the second slot starts before the first, so the output is
not sorted by slot start. `main` reaches this call from the calendars
[(7:00,8:00),(8:30,9:00)] and [(7:00,8:00)]. -/
theorem findPossibleSlots_output_not_sorted :
    SortedByStart [(hm 7 0, hm 8 0), (hm 8 30, hm 9 0)]
      ∧ ValidIntervals [(hm 7 0, hm 8 0), (hm 8 30, hm 9 0)]
      ∧ StrictlySeparated [(hm 7 0, hm 8 0), (hm 8 30, hm 9 0)]
      ∧ findPossibleSlots [(hm 7 0, hm 8 0), (hm 8 30, hm 9 0)] 30
          (hm 10 0, hm 17 0) (hm 10 0, hm 17 0)
        = some [(hm 10 0, hm 8 30), (hm 9 0, hm 17 0)]
      ∧ ¬ SortedByStart [(hm 10 0, hm 8 30), (hm 9 0, hm 17 0)]
      ∧ mainPipeline [(hm 7 0, hm 8 0), (hm 8 30, hm 9 0)] [(hm 7 0, hm 8 0)]
          (hm 10 0, hm 17 0) (hm 10 0, hm 17 0) 30
        = some [(hm 10 0, hm 8 30), (hm 9 0, hm 17 0)] := by
  refine ⟨?_, ?_, ?_, ?_, ?_, ?_⟩
  · simp [SortedByStart, StartLE, Time.ge, hm]
  · simp [ValidIntervals, Time.ge, hm]
  · simp [StrictlySeparated, Time.lt, hm]
  · simp [findPossibleSlots, findPossibleSlots.scan, Time.lt, Time.gt, Time.sub, int32, hm]
  · simp [SortedByStart, StartLE, Time.ge, hm]
  · simp [mainPipeline, mergeCalendars, mergeCalendars.both, mergeCalendars.rest,
      mergeIntervalsInCalendar, mergeIntervalsInCalendar.loop, mergeIntervalsInCalendar.skip,
      findPossibleSlots, findPossibleSlots.scan, Time.lt, Time.gt, Time.ge, Time.sub, int32, hm]

/-- C12 as stated is false. With A = [(9:00,10:00)] and B = [(9:00,9:30)], both sorted and
with equal first starts, `mergeCalendars A B` is [(9:00,9:30),(9:00,10:00)]: its first
element is the first interval of B, not of A. -/
theorem mergeCalendars_tie_head_not_from_A :
    SortedByStart [(hm 9 0, hm 10 0)]
      ∧ SortedByStart [(hm 9 0, hm 9 30)]
      ∧ ((hm 9 0, hm 10 0) : Interval).1 = ((hm 9 0, hm 9 30) : Interval).1
      ∧ mergeCalendars [(hm 9 0, hm 10 0)] [(hm 9 0, hm 9 30)]
        = [(hm 9 0, hm 9 30), (hm 9 0, hm 10 0)]
      ∧ (mergeCalendars [(hm 9 0, hm 10 0)] [(hm 9 0, hm 9 30)]).head?
        ≠ some (hm 9 0, hm 10 0) := by
  have hmerge : mergeCalendars [(hm 9 0, hm 10 0)] [(hm 9 0, hm 9 30)]
      = [(hm 9 0, hm 9 30), (hm 9 0, hm 10 0)] := by
    simp [mergeCalendars, mergeCalendars.both, mergeCalendars.rest, Time.lt, hm]
  refine ⟨?_, ?_, rfl, hmerge, ?_⟩
  · simp [SortedByStart]
  · simp [SortedByStart]
  · rw [hmerge]
    simp [hm]

/-- C12 as amended. For sorted `A` and `B` the output of `mergeCalendars A B` is an
interleaving of `A` and `B` (there is a labelling `src` of its positions by source,
`false` for `A` and `true` for `B`, whose `A`-labelled part is `A` and whose `B`-labelled
part is `B`) in which no interval from `A` stands before an interval from `B` of equal
start: on a tie the interval from `B` comes first. In particular, when the first intervals
of `A` and `B` have equal start, the first element of the output is the first interval
of `B`. -/
theorem mergeCalendars_ties_take_B_first (A B : List Interval)
    (_hA : SortedByStart A) (hB : SortedByStart B) :
    (∃ src : List (Interval × Bool),
        src.map Prod.fst = mergeCalendars A B
          ∧ (src.filter (fun x => !x.2)).map Prod.fst = A
          ∧ (src.filter (fun x => x.2)).map Prod.fst = B
          ∧ src.Pairwise (fun x y => x.1.1 = y.1.1 → ¬ (x.2 = false ∧ y.2 = true)))
      ∧ (∀ a A' b B', A = a :: A' → B = b :: B' → a.1 = b.1 →
          (mergeCalendars A B).head? = some b) := by
  have hLf : ∀ x ∈ A.map (fun a => (a, false)), x.2 = false := by
    intro x hx
    obtain ⟨a, _, rfl⟩ := List.mem_map.mp hx
    rfl
  have hRt : ∀ y ∈ B.map (fun b => (b, true)), y.2 = true := by
    intro y hy
    obtain ⟨b, _, rfl⟩ := List.mem_map.mp hy
    rfl
  have hmapA : (A.map (fun a => (a, false))).map Prod.fst = A := by
    rw [List.map_map]
    exact List.map_id _
  have hmapB : (B.map (fun b => (b, true))).map Prod.fst = B := by
    rw [List.map_map]
    exact List.map_id _
  refine ⟨⟨List.merge (A.map (fun a => (a, false))) (B.map (fun b => (b, true)))
      (fun x y => takeLeft x.1 y.1), ?_, ?_, ?_, ?_⟩, ?_⟩
  · rw [merge_map_fst, hmapA, hmapB, mergeCalendars_eq_merge]
  · rw [(merge_filter_sources _ _ hLf hRt).1, hmapA]
  · rw [(merge_filter_sources _ _ hLf hRt).2, hmapB]
  · refine merge_ties_second_first _ _ hLf hRt ?_
    rw [hmapB]
    exact (sortedByStart_iff_pairwise B).mp hB
  · rintro a A' b B' rfl rfl heq
    rw [mergeCalendars_eq_merge, List.cons_merge_cons]
    have : takeLeft a b = false := by
      simp only [takeLeft, heq, Time.lt_irrefl]
    simp [this]

/-- Witness of the amended C12 on A = [(9:00,10:00),(12:00,13:00)] and
B = [(9:00,9:30),(12:00,12:30)]. -/
theorem mergeCalendars_ties_take_B_first_witness :
    SortedByStart [(hm 9 0, hm 10 0), (hm 12 0, hm 13 0)]
      ∧ SortedByStart [(hm 9 0, hm 9 30), (hm 12 0, hm 12 30)]
      ∧ (∃ src : List (Interval × Bool),
          src.map Prod.fst
              = mergeCalendars [(hm 9 0, hm 10 0), (hm 12 0, hm 13 0)]
                  [(hm 9 0, hm 9 30), (hm 12 0, hm 12 30)]
            ∧ (src.filter (fun x => !x.2)).map Prod.fst
              = [(hm 9 0, hm 10 0), (hm 12 0, hm 13 0)]
            ∧ (src.filter (fun x => x.2)).map Prod.fst
              = [(hm 9 0, hm 9 30), (hm 12 0, hm 12 30)]
            ∧ src.Pairwise (fun x y => x.1.1 = y.1.1 → ¬ (x.2 = false ∧ y.2 = true)))
      ∧ (∀ a A' b B', [(hm 9 0, hm 10 0), (hm 12 0, hm 13 0)] = a :: A' →
          [(hm 9 0, hm 9 30), (hm 12 0, hm 12 30)] = b :: B' → a.1 = b.1 →
          (mergeCalendars [(hm 9 0, hm 10 0), (hm 12 0, hm 13 0)]
            [(hm 9 0, hm 9 30), (hm 12 0, hm 12 30)]).head? = some b) :=
  ⟨by simp [SortedByStart, StartLE, Time.ge, hm], by simp [SortedByStart, StartLE, Time.ge, hm],
    mergeCalendars_ties_take_B_first _ _ (by simp [SortedByStart, StartLE, Time.ge, hm])
      (by simp [SortedByStart, StartLE, Time.ge, hm])⟩

/-- C13. Example 1 through the whole pipeline: with A = [(9:00,10:00)],
B = [(9:30,11:00)], both windows (9:00,17:00) and `minutes = 30`,
`mergeIntervalsInCalendar (mergeCalendars A B)` is [(9:00,11:00)] and `findPossibleSlots`
on it returns exactly [(11:00,17:00)]. -/
theorem example1_pipeline :
    mergeIntervalsInCalendar (mergeCalendars [(hm 9 0, hm 10 0)] [(hm 9 30, hm 11 0)])
        = some [(hm 9 0, hm 11 0)]
      ∧ findPossibleSlots [(hm 9 0, hm 11 0)] 30 (hm 9 0, hm 17 0) (hm 9 0, hm 17 0)
        = some [(hm 11 0, hm 17 0)]
      ∧ mainPipeline [(hm 9 0, hm 10 0)] [(hm 9 30, hm 11 0)]
          (hm 9 0, hm 17 0) (hm 9 0, hm 17 0) 30
        = some [(hm 11 0, hm 17 0)] := by
  refine ⟨?_, ?_, ?_⟩
  · simp [mergeCalendars, mergeCalendars.both, mergeCalendars.rest,
      mergeIntervalsInCalendar, mergeIntervalsInCalendar.loop, mergeIntervalsInCalendar.skip,
      Time.lt, Time.gt, Time.ge, hm]
  · simp [findPossibleSlots, findPossibleSlots.scan, Time.lt, Time.gt, hm]
  · simp [mainPipeline, mergeCalendars, mergeCalendars.both, mergeCalendars.rest,
      mergeIntervalsInCalendar, mergeIntervalsInCalendar.loop, mergeIntervalsInCalendar.skip,
      findPossibleSlots, findPossibleSlots.scan, Time.lt, Time.gt, Time.ge, Time.sub, int32, hm]

/-- C14. Time ordering: for all `Time` values with arbitrary integer fields, `operator<`
is the lexicographic strict order on (hours, minutes); it is irreflexive and transitive,
exactly one of `a < b`, `a = b`, `b < a` holds, `a > b` holds iff `b < a`, and `a >= b`
holds iff not `a < b`. -/
theorem time_order_lexicographic (a b c : Time) :
    (Time.lt a b = true ↔ a.hours < b.hours ∨ (a.hours = b.hours ∧ a.minutes < b.minutes))
      ∧ Time.lt a a = false
      ∧ (Time.lt a b = true → Time.lt b c = true → Time.lt a c = true)
      ∧ ((Time.lt a b = true ∧ a ≠ b ∧ Time.lt b a = false)
          ∨ (Time.lt a b = false ∧ a = b ∧ Time.lt b a = false)
          ∨ (Time.lt a b = false ∧ a ≠ b ∧ Time.lt b a = true))
      ∧ (Time.gt a b = true ↔ Time.lt b a = true)
      ∧ (Time.ge a b = true ↔ ¬ Time.lt a b = true) := by
  refine ⟨Time.lt_iff a b, Time.lt_irrefl a, Time.lt_trans, ?_, ?_, ?_⟩
  · by_cases hab : Time.lt a b = true
    · refine Or.inl ⟨hab, ?_, ?_⟩
      · rintro rfl
        rw [Time.lt_irrefl] at hab
        exact Bool.false_ne_true hab
      · rw [← Bool.not_eq_true, Time.lt_iff]
        rw [Time.lt_iff] at hab
        omega
    · by_cases hba : Time.lt b a = true
      · refine Or.inr (Or.inr ⟨by simpa using hab, ?_, hba⟩)
        rintro rfl
        rw [Time.lt_irrefl] at hba
        exact Bool.false_ne_true hba
      · exact Or.inr (Or.inl ⟨by simpa using hab,
          Time.eq_of_not_lt (by simpa using hab) (by simpa using hba), by simpa using hba⟩)
  · rw [Time.gt_eq_lt]
  · rw [Time.ge_eq_not_lt]
    simp

/-- Witness of C14 at 9:30, 9:45 and 10:15. -/
theorem time_order_lexicographic_witness :
    (Time.lt (hm 9 30) (hm 9 45) = true
        ↔ (hm 9 30).hours < (hm 9 45).hours
          ∨ ((hm 9 30).hours = (hm 9 45).hours ∧ (hm 9 30).minutes < (hm 9 45).minutes))
      ∧ Time.lt (hm 9 30) (hm 9 30) = false
      ∧ (Time.lt (hm 9 30) (hm 9 45) = true → Time.lt (hm 9 45) (hm 10 15) = true →
          Time.lt (hm 9 30) (hm 10 15) = true)
      ∧ ((Time.lt (hm 9 30) (hm 9 45) = true ∧ hm 9 30 ≠ hm 9 45
            ∧ Time.lt (hm 9 45) (hm 9 30) = false)
          ∨ (Time.lt (hm 9 30) (hm 9 45) = false ∧ hm 9 30 = hm 9 45
            ∧ Time.lt (hm 9 45) (hm 9 30) = false)
          ∨ (Time.lt (hm 9 30) (hm 9 45) = false ∧ hm 9 30 ≠ hm 9 45
            ∧ Time.lt (hm 9 45) (hm 9 30) = true))
      ∧ (Time.gt (hm 9 30) (hm 9 45) = true ↔ Time.lt (hm 9 45) (hm 9 30) = true)
      ∧ (Time.ge (hm 9 30) (hm 9 45) = true ↔ ¬ Time.lt (hm 9 30) (hm 9 45) = true) :=
  time_order_lexicographic (hm 9 30) (hm 9 45) (hm 10 15)

/-- C15. Closed overlap test on two intervals: for every input [(a, b), (c, d)] with
`a <= c`, `mergeIntervalsInCalendar` returns the single interval [(a, max(b, d))] when
`c <= b` (touching included), and returns the input unchanged when `c > b`. -/
theorem mergeIntervalsInCalendar_two_intervals (a b c d : Time)
    (_hac : Time.ge c a = true) :
    (Time.ge b c = true →
        mergeIntervalsInCalendar [(a, b), (c, d)] = some [(a, Time.max b d)])
      ∧ (Time.gt c b = true →
        mergeIntervalsInCalendar [(a, b), (c, d)] = some [(a, b), (c, d)]) := by
  constructor
  · intro h
    simp [mergeIntervalsInCalendar, mergeIntervalsInCalendar.loop,
      mergeIntervalsInCalendar.skip, h, Time.max_eq_code]
  · intro h
    have h' : Time.ge b c = false := by
      rw [Time.ge_eq_not_lt, ← Time.gt_eq_lt, h]
      rfl
    simp [mergeIntervalsInCalendar, mergeIntervalsInCalendar.loop,
      mergeIntervalsInCalendar.skip, h']

/-- Witness of C15 on the back-to-back meetings [(9:00,10:00),(10:00,11:00)]: they are
merged into [(9:00,11:00)]. -/
theorem mergeIntervalsInCalendar_two_intervals_witness :
    Time.ge (hm 10 0) (hm 9 0) = true
      ∧ Time.ge (hm 10 0) (hm 10 0) = true
      ∧ Time.max (hm 10 0) (hm 11 0) = hm 11 0
      ∧ mergeIntervalsInCalendar [(hm 9 0, hm 10 0), (hm 10 0, hm 11 0)]
        = some [(hm 9 0, Time.max (hm 10 0) (hm 11 0))] :=
  ⟨by simp [Time.ge, hm], by simp [Time.ge, hm], by simp [Time.max, Time.lt, hm],
    (mergeIntervalsInCalendar_two_intervals (hm 9 0) (hm 10 0) (hm 10 0) (hm 11 0)
      (by simp [Time.ge, hm])).1 (by simp [Time.ge, hm])⟩

/-- C16. The threshold only removes middle slots: for every non-empty calendar, every two
windows and all thresholds `m <= m'`, the result for `m'` is a sublist of the result for
`m`; both results have the same leading gap and the same trailing gap, which do not
depend on the threshold, and differ only in the middle part. Example 2 gives
[(10:00,13:00),(14:00,17:00)] for `minutes = 60` and [(14:00,17:00)] for `minutes = 200`. -/
theorem findPossibleSlots_threshold_sublist (calendar : List Interval) (m m' : Int)
    (window1 window2 : Interval) (hne : calendar ≠ []) (hle : m ≤ m') :
    (∃ mid mid',
        findPossibleSlots calendar m window1 window2
            = some (leadingGap (lowerBound window1 window2) (calendar.head hne) ++ mid
                ++ trailingGap (upperBound window1 window2) (calendar.getLast hne))
          ∧ findPossibleSlots calendar m' window1 window2
            = some (leadingGap (lowerBound window1 window2) (calendar.head hne) ++ mid'
                ++ trailingGap (upperBound window1 window2) (calendar.getLast hne))
          ∧ mid'.Sublist mid
          ∧ (leadingGap (lowerBound window1 window2) (calendar.head hne) ++ mid'
                ++ trailingGap (upperBound window1 window2) (calendar.getLast hne)).Sublist
              (leadingGap (lowerBound window1 window2) (calendar.head hne) ++ mid
                ++ trailingGap (upperBound window1 window2) (calendar.getLast hne)))
      ∧ findPossibleSlots [(hm 9 0, hm 10 0), (hm 13 0, hm 14 0)] 60
          (hm 9 0, hm 17 0) (hm 9 0, hm 17 0)
        = some [(hm 10 0, hm 13 0), (hm 14 0, hm 17 0)]
      ∧ findPossibleSlots [(hm 9 0, hm 10 0), (hm 13 0, hm 14 0)] 200
          (hm 9 0, hm 17 0) (hm 9 0, hm 17 0)
        = some [(hm 14 0, hm 17 0)] := by
  have hsub := middleGaps_sublist m m' (lowerBound window1 window2)
    (upperBound window1 window2) calendar hle
  refine ⟨⟨_, _, findPossibleSlots_eq_gaps calendar m window1 window2 hne,
    findPossibleSlots_eq_gaps calendar m' window1 window2 hne, hsub,
    ((List.Sublist.refl _).append hsub).append (List.Sublist.refl _)⟩, ?_, ?_⟩
  · simp [findPossibleSlots, findPossibleSlots.scan, Time.lt, Time.gt, Time.sub, int32, hm]
  · simp [findPossibleSlots, findPossibleSlots.scan, Time.lt, Time.gt, Time.sub, int32, hm]

/-- Witness of C16 on the Example 2 calendar [(9:00,10:00),(13:00,14:00)] with both windows
(9:00,17:00) and the thresholds 60 and 200. -/
theorem findPossibleSlots_threshold_sublist_witness :
    [(hm 9 0, hm 10 0), (hm 13 0, hm 14 0)] ≠ []
      ∧ (60 : Int) ≤ 200
      ∧ ∃ mid mid',
          findPossibleSlots [(hm 9 0, hm 10 0), (hm 13 0, hm 14 0)] 60
              (hm 9 0, hm 17 0) (hm 9 0, hm 17 0)
            = some (leadingGap (lowerBound (hm 9 0, hm 17 0) (hm 9 0, hm 17 0))
                  ([(hm 9 0, hm 10 0), (hm 13 0, hm 14 0)].head (by simp)) ++ mid
                ++ trailingGap (upperBound (hm 9 0, hm 17 0) (hm 9 0, hm 17 0))
                  ([(hm 9 0, hm 10 0), (hm 13 0, hm 14 0)].getLast (by simp)))
          ∧ findPossibleSlots [(hm 9 0, hm 10 0), (hm 13 0, hm 14 0)] 200
              (hm 9 0, hm 17 0) (hm 9 0, hm 17 0)
            = some (leadingGap (lowerBound (hm 9 0, hm 17 0) (hm 9 0, hm 17 0))
                  ([(hm 9 0, hm 10 0), (hm 13 0, hm 14 0)].head (by simp)) ++ mid'
                ++ trailingGap (upperBound (hm 9 0, hm 17 0) (hm 9 0, hm 17 0))
                  ([(hm 9 0, hm 10 0), (hm 13 0, hm 14 0)].getLast (by simp)))
          ∧ mid'.Sublist mid
          ∧ (leadingGap (lowerBound (hm 9 0, hm 17 0) (hm 9 0, hm 17 0))
                  ([(hm 9 0, hm 10 0), (hm 13 0, hm 14 0)].head (by simp)) ++ mid'
                ++ trailingGap (upperBound (hm 9 0, hm 17 0) (hm 9 0, hm 17 0))
                  ([(hm 9 0, hm 10 0), (hm 13 0, hm 14 0)].getLast (by simp))).Sublist
              (leadingGap (lowerBound (hm 9 0, hm 17 0) (hm 9 0, hm 17 0))
                  ([(hm 9 0, hm 10 0), (hm 13 0, hm 14 0)].head (by simp)) ++ mid
                ++ trailingGap (upperBound (hm 9 0, hm 17 0) (hm 9 0, hm 17 0))
                  ([(hm 9 0, hm 10 0), (hm 13 0, hm 14 0)].getLast (by simp))) :=
  ⟨by simp, by decide,
    (findPossibleSlots_threshold_sublist [(hm 9 0, hm 10 0), (hm 13 0, hm 14 0)] 60 200
      (hm 9 0, hm 17 0) (hm 9 0, hm 17 0) (by simp) (by decide)).1⟩

/-- C17 fails on the code. With A = [(9:00,10:00)] and B = [(9:00,12:00),(11:00,11:30)]
(both sorted, every interval with `start <= end`), both windows (8:00,18:00) and
`minutes = 30`, the pipeline returns [(8:00,9:00),(12:00,18:00)] for (A, B) and
[(8:00,9:00),(11:30,18:00)] for (B, A). -/
theorem mainPipeline_not_symmetric :
    SortedByStart [(hm 9 0, hm 10 0)]
      ∧ SortedByStart [(hm 9 0, hm 12 0), (hm 11 0, hm 11 30)]
      ∧ ValidIntervals [(hm 9 0, hm 10 0)]
      ∧ ValidIntervals [(hm 9 0, hm 12 0), (hm 11 0, hm 11 30)]
      ∧ mainPipeline [(hm 9 0, hm 10 0)] [(hm 9 0, hm 12 0), (hm 11 0, hm 11 30)]
          (hm 8 0, hm 18 0) (hm 8 0, hm 18 0) 30
        = some [(hm 8 0, hm 9 0), (hm 12 0, hm 18 0)]
      ∧ mainPipeline [(hm 9 0, hm 12 0), (hm 11 0, hm 11 30)] [(hm 9 0, hm 10 0)]
          (hm 8 0, hm 18 0) (hm 8 0, hm 18 0) 30
        = some [(hm 8 0, hm 9 0), (hm 11 30, hm 18 0)]
      ∧ mainPipeline [(hm 9 0, hm 10 0)] [(hm 9 0, hm 12 0), (hm 11 0, hm 11 30)]
          (hm 8 0, hm 18 0) (hm 8 0, hm 18 0) 30
        ≠ mainPipeline [(hm 9 0, hm 12 0), (hm 11 0, hm 11 30)] [(hm 9 0, hm 10 0)]
          (hm 8 0, hm 18 0) (hm 8 0, hm 18 0) 30 := by
  have h1 : mainPipeline [(hm 9 0, hm 10 0)] [(hm 9 0, hm 12 0), (hm 11 0, hm 11 30)]
      (hm 8 0, hm 18 0) (hm 8 0, hm 18 0) 30
      = some [(hm 8 0, hm 9 0), (hm 12 0, hm 18 0)] := by
    simp [mainPipeline, mergeCalendars, mergeCalendars.both, mergeCalendars.rest,
      mergeIntervalsInCalendar, mergeIntervalsInCalendar.loop, mergeIntervalsInCalendar.skip,
      findPossibleSlots, findPossibleSlots.scan, Time.lt, Time.gt, Time.ge, Time.sub, int32, hm]
  have h2 : mainPipeline [(hm 9 0, hm 12 0), (hm 11 0, hm 11 30)] [(hm 9 0, hm 10 0)]
      (hm 8 0, hm 18 0) (hm 8 0, hm 18 0) 30
      = some [(hm 8 0, hm 9 0), (hm 11 30, hm 18 0)] := by
    simp [mainPipeline, mergeCalendars, mergeCalendars.both, mergeCalendars.rest,
      mergeIntervalsInCalendar, mergeIntervalsInCalendar.loop, mergeIntervalsInCalendar.skip,
      findPossibleSlots, findPossibleSlots.scan, Time.lt, Time.gt, Time.ge, Time.sub, int32, hm]
  refine ⟨?_, ?_, ?_, ?_, h1, h2, ?_⟩
  · simp [SortedByStart]
  · simp [SortedByStart, StartLE, Time.ge, hm]
  · simp [ValidIntervals, Time.ge, hm]
  · simp [ValidIntervals, Time.ge, hm]
  · rw [h1, h2]
    simp [hm]

/-- C18. Slot finder inside the common window: for a non-empty calendar with `start <= end`
in every interval and `prev.end < next.start` for every adjacent pair, and windows with
`lowerBound <= first.start` and `last.end <= upperBound`, `findPossibleSlots` returns the
leading gap, then the unclipped gaps `(prev.end, curr.start)` of raw length at least
`minutes`, then the trailing gap; every middle slot is at least `minutes` long (its end
minus its start by `Time::operator-`, a 32-bit `int`); every slot
`(s, e)` has `s <= e`, `lowerBound <= s` and `e <= upperBound`; and the output is sorted by
start with each slot's end no later than the next slot's start. -/
theorem findPossibleSlots_inside_window (calendar : List Interval) (minutes : Int)
    (window1 window2 : Interval) (hne : calendar ≠ [])
    (hvalid : ValidIntervals calendar) (hsep : StrictlySeparated calendar)
    (hlo : Time.ge (calendar.head hne).1 (lowerBound window1 window2) = true)
    (hhi : Time.ge (upperBound window1 window2) (calendar.getLast hne).2 = true) :
    ∃ slots, findPossibleSlots calendar minutes window1 window2 = some slots
      ∧ slots = leadingGap (lowerBound window1 window2) (calendar.head hne)
            ++ rawGaps minutes calendar
            ++ trailingGap (upperBound window1 window2) (calendar.getLast hne)
      ∧ (∀ slot ∈ rawGaps minutes calendar, Time.sub slot.2 slot.1 ≥ minutes)
      ∧ (∀ slot ∈ slots, Time.ge slot.2 slot.1 = true
            ∧ Time.ge slot.1 (lowerBound window1 window2) = true
            ∧ Time.ge (upperBound window1 window2) slot.2 = true)
      ∧ SortedByStart slots
      ∧ EndBeforeNextStart slots := by
  obtain ⟨h1, h2, h3, h4⟩ :=
    findPossibleSlots_inside calendar minutes window1 window2 hne hvalid hsep hlo hhi
  refine ⟨_, h1, rfl, h2, h3, ?_, h4.chain'⟩
  rw [sortedByStart_iff_pairwise]
  refine h4.imp_of_mem ?_
  intro a b ha _ hab
  exact Time.ge_trans hab (h3 a ha).1

/-- Witness of C18 on the calendar [(9:00,10:00),(13:00,14:00)] with both windows
(8:00,17:00) and `minutes = 60`. -/
theorem findPossibleSlots_inside_window_witness :
    ValidIntervals [(hm 9 0, hm 10 0), (hm 13 0, hm 14 0)]
      ∧ StrictlySeparated [(hm 9 0, hm 10 0), (hm 13 0, hm 14 0)]
      ∧ ∃ slots, findPossibleSlots [(hm 9 0, hm 10 0), (hm 13 0, hm 14 0)] 60
            (hm 8 0, hm 17 0) (hm 8 0, hm 17 0) = some slots
          ∧ slots = leadingGap (lowerBound (hm 8 0, hm 17 0) (hm 8 0, hm 17 0))
                ([(hm 9 0, hm 10 0), (hm 13 0, hm 14 0)].head (by simp))
              ++ rawGaps 60 [(hm 9 0, hm 10 0), (hm 13 0, hm 14 0)]
              ++ trailingGap (upperBound (hm 8 0, hm 17 0) (hm 8 0, hm 17 0))
                ([(hm 9 0, hm 10 0), (hm 13 0, hm 14 0)].getLast (by simp))
          ∧ (∀ slot ∈ rawGaps 60 [(hm 9 0, hm 10 0), (hm 13 0, hm 14 0)],
              Time.sub slot.2 slot.1 ≥ 60)
          ∧ (∀ slot ∈ slots, Time.ge slot.2 slot.1 = true
              ∧ Time.ge slot.1 (lowerBound (hm 8 0, hm 17 0) (hm 8 0, hm 17 0)) = true
              ∧ Time.ge (upperBound (hm 8 0, hm 17 0) (hm 8 0, hm 17 0)) slot.2 = true)
          ∧ SortedByStart slots
          ∧ EndBeforeNextStart slots :=
  ⟨by simp [ValidIntervals, Time.ge, hm], by simp [StrictlySeparated, Time.lt, hm],
    findPossibleSlots_inside_window [(hm 9 0, hm 10 0), (hm 13 0, hm 14 0)] 60
      (hm 8 0, hm 17 0) (hm 8 0, hm 17 0) (by simp)
      (by simp [ValidIntervals, Time.ge, hm]) (by simp [StrictlySeparated, Time.lt, hm])
      (by simp [lowerBound, Time.max, Time.lt, Time.ge, hm])
      (by simp [upperBound, Time.min, Time.lt, Time.ge, hm])⟩

/-- C19. Coalescer is the identity on already-disjoint input: for every interval list in
which every adjacent pair has `prev.end < next.start`, `mergeIntervalsInCalendar` returns
the list unchanged. -/
theorem mergeIntervalsInCalendar_separated_id (calendar : List Interval)
    (hsep : StrictlySeparated calendar) :
    mergeIntervalsInCalendar calendar = some calendar := by
  have := mergeIntervalsInCalendar.loop_separated calendar hsep calendar.length 0 []
    (by omega)
  simpa [mergeIntervalsInCalendar] using this

/-- Witness of C19 on the calendar [(9:00,10:00),(13:00,14:00),(16:00,16:30)]. -/
theorem mergeIntervalsInCalendar_separated_id_witness :
    StrictlySeparated [(hm 9 0, hm 10 0), (hm 13 0, hm 14 0), (hm 16 0, hm 16 30)]
      ∧ mergeIntervalsInCalendar [(hm 9 0, hm 10 0), (hm 13 0, hm 14 0), (hm 16 0, hm 16 30)]
        = some [(hm 9 0, hm 10 0), (hm 13 0, hm 14 0), (hm 16 0, hm 16 30)] :=
  ⟨by simp [StrictlySeparated, Time.lt, hm],
    mergeIntervalsInCalendar_separated_id _ (by simp [StrictlySeparated, Time.lt, hm])⟩

/-- C20. No out-of-bounds access: in `mergeIntervalsInCalendar` the index at which
`calendar[index - 1]` is read lies in `1 .. size`; on every input the function returns a
result (it terminates and reads inside the vector), and on a non-empty input the result is
non-empty and its first start is the input's first start; hence, if one of the two
calendars is non-empty, the calendar passed to `findPossibleSlots` is non-empty, its
reads of `calendar[0]` and `calendar[size - 1]` are defined, and the pipeline returns a
result. -/
theorem mergeIntervalsInCalendar_reads_in_bounds (calendar A B : List Interval) :
    (∀ index (h : index < calendar.length),
        1 ≤ mergeIntervalsInCalendar.skip calendar calendar[index].2 (index + 1)
          ∧ mergeIntervalsInCalendar.skip calendar calendar[index].2 (index + 1)
              ≤ calendar.length)
      ∧ (∃ out, mergeIntervalsInCalendar calendar = some out
          ∧ ∀ hne : calendar ≠ [], ∃ hout : out ≠ [],
              (out.head hout).1 = (calendar.head hne).1)
      ∧ (A ≠ [] ∨ B ≠ [] →
          ∃ finalCalendar, mergeIntervalsInCalendar (mergeCalendars A B) = some finalCalendar
            ∧ finalCalendar ≠ []
            ∧ (∃ first, finalCalendar[0]? = some first)
            ∧ (∃ last, finalCalendar[finalCalendar.length - 1]? = some last)
            ∧ ∀ minutes lim1 lim2, ∃ slots,
                findPossibleSlots finalCalendar minutes lim1 lim2 = some slots
                  ∧ mainPipeline A B lim1 lim2 minutes = some slots) := by
  refine ⟨?_, mergeIntervalsInCalendar_total calendar, ?_⟩
  · intro index h
    have hb := mergeIntervalsInCalendar.skip_bounds calendar calendar[index].2
      (calendar.length - (index + 1)) (index + 1) (Nat.le_refl _)
    exact ⟨by omega, hb.2 (by omega)⟩
  · intro h
    obtain ⟨final, hfinal, hhead⟩ := mergeIntervalsInCalendar_total (mergeCalendars A B)
    obtain ⟨hne, _⟩ := hhead (mergeCalendars_ne_nil A B h)
    have hpos : 0 < final.length := List.length_pos.mpr hne
    refine ⟨final, hfinal, hne, ⟨final[0], List.getElem?_eq_getElem hpos⟩,
      ⟨final[final.length - 1], List.getElem?_eq_getElem (by omega)⟩, ?_⟩
    intro minutes lim1 lim2
    refine ⟨_, findPossibleSlots_eq_gaps final minutes lim1 lim2 hne, ?_⟩
    simp only [mainPipeline, hfinal]
    exact findPossibleSlots_eq_gaps final minutes lim1 lim2 hne

/-- Witness of C20 on A = [(9:00,10:00)] and B = [(9:30,11:00)]: the pipeline reaches
`findPossibleSlots` with a non-empty calendar and returns a result. -/
theorem mergeIntervalsInCalendar_reads_in_bounds_witness :
    ([(hm 9 0, hm 10 0)] ≠ [] ∨ [(hm 9 30, hm 11 0)] ≠ [])
      ∧ ∃ finalCalendar,
          mergeIntervalsInCalendar (mergeCalendars [(hm 9 0, hm 10 0)] [(hm 9 30, hm 11 0)])
              = some finalCalendar
            ∧ finalCalendar ≠ []
            ∧ (∃ first, finalCalendar[0]? = some first)
            ∧ (∃ last, finalCalendar[finalCalendar.length - 1]? = some last)
            ∧ ∀ minutes lim1 lim2, ∃ slots,
                findPossibleSlots finalCalendar minutes lim1 lim2 = some slots
                  ∧ mainPipeline [(hm 9 0, hm 10 0)] [(hm 9 30, hm 11 0)] lim1 lim2 minutes
                    = some slots :=
  ⟨Or.inl (by simp),
    (mergeIntervalsInCalendar_reads_in_bounds [] [(hm 9 0, hm 10 0)]
      [(hm 9 30, hm 11 0)]).2.2 (Or.inl (by simp))⟩

end UMT
